import Mathlib

/-!
Verification of the pathfinding engine of the Shortest-Path Visualizer
(source: `src/components/ShortestPath.tsx`).

The TypeScript component stores the grid as a `GridNode[][]` where the cell
object at `grid[y][x]` carries its own coordinates `x`, `y`.  Each cell object
is uniquely determined by its coordinates, and the algorithms only ever access
cells through `grid[y][x]`, so the shallow embedding represents a grid as a
function `Pos → GridNode` with `Pos = ℕ × ℕ` (an `(x, y)` pair) and drops the
redundant coordinate fields.  Object identity in the source (`Set.has`,
`Array.includes`, `parent` references, which all compare cell objects of the
same grid copy) becomes position equality.  JavaScript `Infinity` scores become
`⊤ : ℕ∞`; all finite scores produced by the algorithms are naturals.

Loops that the source writes as `while` loops are written with an explicit
fuel parameter so that every function is structurally recursive and evaluates
by kernel reduction.  `runDijkstra` consumes exactly one element of the
unvisited list per iteration, so fuel `(allPositions cols rows).length` is
exact; the A* loop closes one fresh cell per iteration, so fuel
`(allPositions cols rows).length + 1` suffices and the `fuelExceeded` outcome
is proved unreachable.  `Array.prototype.sort` (guaranteed stable since
ES2019) with comparator `(a, b) => a.gScore - b.gScore` — where the `NaN`
produced on `Infinity - Infinity` is treated as `0` by the ECMAScript
`SortCompare` specification — is exactly the stable sort by the key order
`≤` on `ℕ∞`; a stable sort is uniquely determined by the key order, so it is
embedded as `List.insertionSort` on the key.

The grid dimensions are the source constants `GRID_COLS = 50`, `GRID_ROWS =
30`; they enter every definition as parameters `cols rows` so that theorems
quantify over them (the claims are about every grid configuration, and the
source treats the two constants opaquely).
-/

namespace ShortestPath

/-- Position of a cell: the `(x, y)` coordinate pair of `grid[y][x]`. -/
abbrev Pos : Type := Nat × Nat

/-- Cell record of the source (`interface GridNode`), minus the redundant
coordinate fields (positions index the grid function).  `parent` is the
back-reference used for path reconstruction, stored as a position. -/
structure GridNode where
  isWall : Bool
  isStart : Bool
  isEnd : Bool
  isVisited : Bool
  isPath : Bool
  gScore : ℕ∞
  hScore : ℕ∞
  fScore : ℕ∞
  parent : Option Pos
deriving DecidableEq

/-- Grid as a mapping from positions to cell records. -/
abbrev Grid : Type := Pos → GridNode

/-- Pointwise update of one cell, the counterpart of mutating `grid[y][x]`. -/
def updateCell (g : Grid) (p : Pos) (c : GridNode) : Grid :=
  fun q => if q = p then c else g q

/-- List of all positions of a `cols × rows` grid in the row-major order
produced by `newGrid.flat()` (`y` outer, `x` inner). -/
def allPositions (cols rows : Nat) : List Pos :=
  (List.range rows).flatMap fun y => (List.range cols).map fun x => (x, y)

/-- Four-directional adjacency of two positions (one coordinate equal, the
other differing by exactly one). -/
def adjacent (p q : Pos) : Prop :=
  (p.1 = q.1 ∧ (p.2 = q.2 + 1 ∨ q.2 = p.2 + 1)) ∨
    (p.2 = q.2 ∧ (p.1 = q.1 + 1 ∨ q.1 = p.1 + 1))

instance adjacent.instDecidable (p q : Pos) : Decidable (adjacent p q) := by
  unfold adjacent; infer_instance

/-- Manhattan distance `|a.x-b.x| + |a.y-b.y|` (source `manhattanDistance`). -/
def manhattanDistance (a b : Pos) : Nat :=
  Nat.dist a.1 b.1 + Nat.dist a.2 b.2

/-- Neighbors of a cell (source `getNeighbors`): the in-bounds cells up, down,
left, right of `p`, in that order, with wall cells filtered out. -/
def getNeighbors (cols rows : Nat) (st : Grid) (p : Pos) : List Pos :=
  ((if 0 < p.2 then [(p.1, p.2 - 1)] else []) ++
   (if p.2 < rows - 1 then [(p.1, p.2 + 1)] else []) ++
   (if 0 < p.1 then [(p.1 - 1, p.2)] else []) ++
   (if p.1 < cols - 1 then [(p.1 + 1, p.2)] else [])).filter fun q => !(st q).isWall

/-- Path reconstruction (source `reconstructPath`): follow `parent` links
backward from `current`, prepending each cell, until a cell with no parent.
The fuel bounds the recursion depth; every call site supplies fuel that is
proved sufficient (the `gScore` strictly decreases along parent links). -/
def reconstructPath (st : Grid) : Nat → Pos → List Pos
  | 0, current => [current]
  | fuel + 1, current =>
    match (st current).parent with
    | none => [current]
    | some q => reconstructPath st fuel q ++ [current]

/-- Key order used by the Dijkstra selection sort: compare `gScore`. -/
def gScoreLE (st : Grid) (a b : Pos) : Prop :=
  (st a).gScore ≤ (st b).gScore

instance gScoreLE.instDecidable (st : Grid) : DecidableRel (gScoreLE st) :=
  fun a b => inferInstanceAs (Decidable ((st a).gScore ≤ (st b).gScore))

instance gScoreLE.instIsTotal (st : Grid) : IsTotal Pos (gScoreLE st) :=
  ⟨fun a b => le_total (st a).gScore (st b).gScore⟩

instance gScoreLE.instIsTrans (st : Grid) : IsTrans Pos (gScoreLE st) :=
  ⟨fun _ _ _ => le_trans⟩

/-- Key order used by the A* selection sort: compare `fScore`. -/
def fScoreLE (st : Grid) (a b : Pos) : Prop :=
  (st a).fScore ≤ (st b).fScore

instance fScoreLE.instDecidable (st : Grid) : DecidableRel (fScoreLE st) :=
  fun a b => inferInstanceAs (Decidable ((st a).fScore ≤ (st b).fScore))

instance fScoreLE.instIsTotal (st : Grid) : IsTotal Pos (fScoreLE st) :=
  ⟨fun a b => le_total (st a).fScore (st b).fScore⟩

instance fScoreLE.instIsTrans (st : Grid) : IsTrans Pos (fScoreLE st) :=
  ⟨fun _ _ _ => le_trans⟩

/-- Stable sort of the unvisited list by `gScore`
(`unvisited.sort((a, b) => a.gScore - b.gScore)`). -/
def sortByGScore (st : Grid) (l : List Pos) : List Pos :=
  l.insertionSort (gScoreLE st)

/-- Stable sort of the open set by `fScore`
(`openSet.sort((a, b) => a.fScore - b.fScore)`). -/
def sortByFScore (st : Grid) (l : List Pos) : List Pos :=
  l.insertionSort (fScoreLE st)

/-- One step of the visited animation (`animateAlgorithm`, first loop): flag
the cell visited unless it is the start or end cell. -/
def markVisited (g : Grid) (p : Pos) : Grid :=
  if !(g p).isStart && !(g p).isEnd then
    updateCell g p { g p with isVisited := true }
  else g

/-- One step of the path animation (`animateAlgorithm`, second loop): flag the
cell as path unless it is the start or end cell. -/
def markPath (g : Grid) (p : Pos) : Grid :=
  if !(g p).isStart && !(g p).isEnd then
    updateCell g p { g p with isPath := true }
  else g

/-- Grid snapshots emitted by one animation loop: each list element produces
one `setGrid` call on the grid obtained by applying the step to that element. -/
def animFrames (f : Grid → Pos → Grid) : Grid → List Pos → List Grid
  | _, [] => []
  | g, p :: ps =>
    let g2 := f g p
    g2 :: animFrames f g2 ps

/-- Animation sequencer (source `animateAlgorithm`): emits one grid snapshot
per visited cell (flagging it visited), then one per path cell (flagging it
path), always skipping the start and end cells.  The final statistics are the
lengths of the two input lists. -/
def animateAlgorithm (st : Grid) (visited path : List Pos) : List Grid :=
  animFrames markVisited st visited ++
    animFrames markPath (visited.foldl markVisited st) path

/-- Outcome of a run.  `missingEndpoints` is the early return when start or
end is unset; `noPath` the "No path found!" toast (the visited list is the
internal list at that point — no frames are emitted); `success` carries the
visited order, the reconstructed path and the emitted animation frames.
`fuelExceeded` is an artifact of fueling the A* while-loop; it is proved
unreachable for the fuel supplied by `runAStar`. -/
inductive RunOutcome where
  | missingEndpoints : RunOutcome
  | noPath (visited : List Pos) : RunOutcome
  | success (visited path : List Pos) (frames : List Grid) : RunOutcome
  | fuelExceeded : RunOutcome

/-- Visited-order list of a completed (non-erroring) run, if any. -/
def RunOutcome.visitedList? : RunOutcome → Option (List Pos)
  | .noPath v => some v
  | .success v _ _ => some v
  | _ => none

/-- Frames a run hands to `setGrid`; empty unless the search succeeded. -/
def RunOutcome.framesList : RunOutcome → List Grid
  | .success _ _ frames => frames
  | _ => []

/-- State of the live grid after a run: the last emitted snapshot, or the
original grid when nothing was emitted. -/
def liveGridAfter (r : RunOutcome) (g : Grid) : Grid :=
  r.framesList.getLast?.getD g

/-- Fresh working copy taken by `runDijkstra` (flags and `hScore` are kept,
search metadata is reset). -/
def resetForDijkstra (g : Grid) : Grid := fun p =>
  { g p with isVisited := false, isPath := false, gScore := ⊤, fScore := ⊤,
             parent := none }

/-- Working copy of `runDijkstra` with the start cell initialized
(`start.gScore = 0; start.fScore = 0`). -/
def dijkstraInit (g : Grid) (s : Pos) : Grid :=
  let g1 := resetForDijkstra g
  updateCell g1 s { g1 s with gScore := 0, fScore := 0 }

/-- Relaxation of one neighbor in Dijkstra's inner loop: if the tentative
score `current.gScore + 1` improves the neighbor, update its `gScore`,
`fScore` and `parent`. -/
def dijkstraRelax (current : Pos) (st : Grid) (nbr : Pos) : Grid :=
  let t := (st current).gScore + 1
  if t < (st nbr).gScore then
    updateCell st nbr { st nbr with gScore := t, fScore := t, parent := some current }
  else st

/-- Main loop of `runDijkstra`.  Per iteration: sort the unvisited list by
`gScore`, shift the head; stop with `noPath` if its score is `⊤`; if it is the
end cell, reconstruct the path and animate; otherwise append it to the visited
order and relax its neighbors.  One element is consumed per iteration, so the
fuel `unvisited.length` supplied by `runDijkstra` is exact and the
`fuelExceeded` branch is unreachable from `runDijkstra`. -/
def dijkstraLoop (cols rows : Nat) : Nat → Grid → List Pos → List Pos → RunOutcome
  | 0, st, unvisited, visited =>
    match sortByGScore st unvisited with
    | [] => .noPath visited
    | _ :: _ => .fuelExceeded
  | fuel + 1, st, unvisited, visited =>
    match sortByGScore st unvisited with
    | [] => .noPath visited
    | current :: rest =>
      if (st current).gScore = ⊤ then .noPath visited
      else if (st current).isEnd then
        let path := reconstructPath st (st current).gScore.toNat current
        .success visited path (animateAlgorithm st visited path)
      else
        let st2 := (getNeighbors cols rows st current).foldl (dijkstraRelax current) st
        dijkstraLoop cols rows fuel st2 rest (visited ++ [current])

/-- Dijkstra run (source `runDijkstra`): missing-endpoint check, fresh working
copy, loop over the full cell list. -/
def runDijkstra (cols rows : Nat) (startNode endNode : Option Pos) (grid : Grid) :
    RunOutcome :=
  match startNode, endNode with
  | some s, some _ =>
    dijkstraLoop cols rows (allPositions cols rows).length (dijkstraInit grid s)
      (allPositions cols rows) []
  | _, _ => .missingEndpoints

/-- Fresh working copy taken by `runAStar` (also resets `hScore`). -/
def resetForAStar (g : Grid) : Grid := fun p =>
  { g p with isVisited := false, isPath := false, gScore := ⊤, hScore := 0,
             fScore := ⊤, parent := none }

/-- Working copy of `runAStar` with the start cell initialized
(`start.gScore = 0; start.hScore = manhattanDistance(start, end);
start.fScore = start.hScore`). -/
def aStarInit (g : Grid) (s e : Pos) : Grid :=
  let g1 := resetForAStar g
  updateCell g1 s { g1 s with gScore := 0,
                              hScore := (manhattanDistance s e : ℕ∞),
                              fScore := (manhattanDistance s e : ℕ∞) }

/-- Processing of one neighbor in the A* inner loop, acting on the pair
(working grid, open list): skip closed neighbors; push undiscovered neighbors
onto the open list and score them; re-score open neighbors only when the
tentative score strictly improves. -/
def aStarRelax (current e : Pos) (closed : List Pos) :
    Grid × List Pos → Pos → Grid × List Pos
  | (st, openL), nbr =>
    if nbr ∈ closed then (st, openL)
    else
      let t := (st current).gScore + 1
      if nbr ∈ openL then
        if t < (st nbr).gScore then
          (updateCell st nbr
            { st nbr with parent := some current, gScore := t,
                          hScore := (manhattanDistance nbr e : ℕ∞),
                          fScore := t + (manhattanDistance nbr e : ℕ∞) }, openL)
        else (st, openL)
      else
        (updateCell st nbr
          { st nbr with parent := some current, gScore := t,
                        hScore := (manhattanDistance nbr e : ℕ∞),
                        fScore := t + (manhattanDistance nbr e : ℕ∞) },
         openL ++ [nbr])

/-- Main loop of `runAStar`.  Per iteration: sort the open list by `fScore`,
shift the head; if it is the end cell, reconstruct and animate; otherwise add
it to the closed set and the visited order and process its neighbors.  Each
iteration closes one cell not closed before, so the fuel supplied by
`runAStar` is proved sufficient. -/
def aStarLoop (cols rows : Nat) (e : Pos) :
    Nat → Grid → List Pos → List Pos → List Pos → RunOutcome
  | 0, st, openL, _, visited =>
    match sortByFScore st openL with
    | [] => .noPath visited
    | _ :: _ => .fuelExceeded
  | fuel + 1, st, openL, closed, visited =>
    match sortByFScore st openL with
    | [] => .noPath visited
    | current :: rest =>
      if (st current).isEnd then
        let path := reconstructPath st (st current).gScore.toNat current
        .success visited path (animateAlgorithm st visited path)
      else
        let closed2 := current :: closed
        let p2 := (getNeighbors cols rows st current).foldl
          (aStarRelax current e closed2) (st, rest)
        aStarLoop cols rows e fuel p2.1 p2.2 closed2 (visited ++ [current])

/-- A* run (source `runAStar`): missing-endpoint check, fresh working copy,
open set initialized to the start cell. -/
def runAStar (cols rows : Nat) (startNode endNode : Option Pos) (grid : Grid) :
    RunOutcome :=
  match startNode, endNode with
  | some s, some e =>
    aStarLoop cols rows e ((allPositions cols rows).length + 1)
      (aStarInit grid s e) [s] [] []
  | _, _ => .missingEndpoints

/-- Editing tool selected in the UI. -/
inductive Tool where
  | placeStart : Tool
  | placeEnd : Tool
  | wall : Tool

/-- Grid edit applied by a canvas click (source `handleCanvasClick`, after the
pixel-to-cell conversion): out-of-bounds clicks are ignored; the start/end
tools clear the flag from the previous holder, set it on the clicked cell and
clear that cell's wall flag; the wall tool toggles the wall flag unless the
clicked cell is the start or end cell.  Returns the new grid and the new
start/end references. -/
def handleCanvasClick (cols rows : Nat) (tool : Tool) (p : Pos) (grid : Grid)
    (startNode endNode : Option Pos) : Grid × Option Pos × Option Pos :=
  if p.1 < cols ∧ p.2 < rows then
    match tool with
    | .placeStart =>
      let g1 := match startNode with
        | some s => updateCell grid s { grid s with isStart := false }
        | none => grid
      (updateCell g1 p { g1 p with isStart := true, isWall := false }, some p, endNode)
    | .placeEnd =>
      let g1 := match endNode with
        | some t => updateCell grid t { grid t with isEnd := false }
        | none => grid
      (updateCell g1 p { g1 p with isEnd := true, isWall := false }, startNode, some p)
    | .wall =>
      if (grid p).isStart = false ∧ (grid p).isEnd = false then
        (updateCell grid p { grid p with isWall := !(grid p).isWall }, startNode, endNode)
      else (grid, startNode, endNode)
  else (grid, startNode, endNode)

/-- Walks of the movement model: `WalkOk cols rows W a l t` states that the
step list `l` leads from `a` to `t`, each step moving to a 4-adjacent,
in-bounds, non-wall cell (`W` is the wall predicate; the starting cell itself
is not constrained, matching the algorithms, which never test the popped
cell's wall flag).  The length of `l` is the number of moves. -/
def WalkOk (cols rows : Nat) (W : Pos → Bool) : Pos → List Pos → Pos → Prop
  | a, [], t => a = t
  | a, q :: l, t =>
    adjacent a q ∧ q.1 < cols ∧ q.2 < rows ∧ W q = false ∧ WalkOk cols rows W q l t

instance WalkOk.instDecidable (cols rows : Nat) (W : Pos → Bool) :
    ∀ a l t, Decidable (WalkOk cols rows W a l t)
  | _, [], _ => inferInstanceAs (Decidable (_ = _))
  | _, q :: l, t =>
    have : Decidable (WalkOk cols rows W q l t) := WalkOk.instDecidable cols rows W q l t
    inferInstanceAs (Decidable (_ ∧ _ ∧ _ ∧ _ ∧ _))

/-- Existence of a walk of `n` moves from `s` to `t`. -/
def Reaches (cols rows : Nat) (W : Pos → Bool) (s : Pos) (n : Nat) (t : Pos) : Prop :=
  ∃ l, WalkOk cols rows W s l t ∧ l.length = n

/-- The shortest-path length from `s` to `t` is `n`: some walk has `n` moves
and no walk has fewer. -/
def MinReach (cols rows : Nat) (W : Pos → Bool) (s : Pos) (n : Nat) (t : Pos) : Prop :=
  Reaches cols rows W s n t ∧ ∀ j, Reaches cols rows W s j t → n ≤ j

/-- Wall predicate of a grid. -/
def wallOf (g : Grid) : Pos → Bool := fun p => (g p).isWall

/-- Loop invariant of `dijkstraLoop`, relative to the grid dimensions, the
start and end positions, and the wall layout `W` of the original grid.
`st` is the working grid, `U` the unvisited list, `visited` the visited-order
list. -/
structure DInv (cols rows : Nat) (s e : Pos) (W : Pos → Bool) (st : Grid)
    (U visited : List Pos) : Prop where
  hU_nodup : U.Nodup
  hU_sub : ∀ p ∈ U, p ∈ allPositions cols rows
  hvis_nodup : visited.Nodup
  hvis_sub : ∀ p ∈ visited, p ∈ allPositions cols rows
  hpart : ∀ p ∈ allPositions cols rows, p ∈ U ∨ p ∈ visited
  hdisj : ∀ p ∈ visited, p ∉ U
  hE_notvis : e ∉ visited
  hwalls : ∀ p, (st p).isWall = W p
  hendflag : ∀ p, (st p).isEnd = true ↔ p = e
  hs0 : (st s).gScore = 0
  hs_parent : (st s).parent = none
  hsound : ∀ p, ∀ n : ℕ, (st p).gScore = (n : ℕ∞) → Reaches cols rows W s n p
  hsettled : ∀ p ∈ visited, ∃ n : ℕ, (st p).gScore = (n : ℕ∞) ∧ MinReach cols rows W s n p
  hclosure : ∀ p ∈ visited, ∀ q ∈ getNeighbors cols rows st p,
    (st q).gScore ≤ (st p).gScore + 1
  hmono : ∀ p ∈ visited, ∀ q ∈ U, (st p).gScore ≤ (st q).gScore
  hchain : ∀ p q, (st p).parent = some q → q ∈ visited ∧ adjacent q p ∧
    p ∈ allPositions cols rows ∧ W p = false ∧
    ∃ m : ℕ, (st q).gScore = (m : ℕ∞) ∧ (st p).gScore = ((m + 1 : Nat) : ℕ∞)
  hnoparent : ∀ p, (st p).parent = none → (st p).gScore ≠ ⊤ → p = s

/-- Loop invariant of `aStarLoop`.  `openL` is the open list, `closed` the
closed set, `visited` the visited-order list. -/
structure AInv (cols rows : Nat) (s e : Pos) (W : Pos → Bool) (st : Grid)
    (openL closed visited : List Pos) : Prop where
  hO_nodup : openL.Nodup
  hC_nodup : closed.Nodup
  hOC_disj : ∀ p ∈ openL, p ∉ closed
  hO_sub : ∀ p ∈ openL, p ∈ allPositions cols rows
  hC_sub : ∀ p ∈ closed, p ∈ allPositions cols rows
  hwalls : ∀ p, (st p).isWall = W p
  hendflag : ∀ p, (st p).isEnd = true ↔ p = e
  hOmeta : ∀ p ∈ openL, (st p).hScore = (manhattanDistance p e : ℕ∞) ∧
    (st p).fScore = (st p).gScore + (manhattanDistance p e : ℕ∞) ∧
    (st p).gScore ≠ ⊤
  hs0 : (st s).gScore = 0
  hs_parent : (st s).parent = none
  hsound : ∀ p, ∀ n : ℕ, (st p).gScore = (n : ℕ∞) → Reaches cols rows W s n p
  hsettledC : ∀ p ∈ closed, ∃ n : ℕ, (st p).gScore = (n : ℕ∞) ∧ MinReach cols rows W s n p
  hclosureC : ∀ p ∈ closed, ∀ q ∈ getNeighbors cols rows st p,
    (st q).gScore ≤ (st p).gScore + 1
  hdisc : ∀ p, (st p).gScore ≠ ⊤ → p ∈ openL ∨ p ∈ closed
  hE_notC : e ∉ closed
  hchain : ∀ p q, (st p).parent = some q → q ∈ closed ∧ adjacent q p ∧
    p ∈ allPositions cols rows ∧ W p = false ∧
    ∃ m : ℕ, (st q).gScore = (m : ℕ∞) ∧ (st p).gScore = ((m + 1 : Nat) : ℕ∞)
  hnoparent : ∀ p, (st p).parent = none → (st p).gScore ≠ ⊤ → p = s
  hvisC : ∀ p, p ∈ visited ↔ p ∈ closed
  hvis_nodup : visited.Nodup
  hvisBound : ∀ p ∈ visited, ∀ k, MinReach cols rows W s k e →
    ∃ j, MinReach cols rows W s j p ∧ j < k

/-- Invariant maintained through the fold over `aStarRelax` inside one A*
iteration, relative to the node `current` just closed (`closed2` already
contains it and `n` is its settled score).  It is `AInv` with the closure
field restricted to the previously closed cells; closure for `current` is
accumulated separately by the fold lemma. -/
structure ARelaxH (cols rows : Nat) (s e current : Pos) (W : Pos → Bool)
    (n : Nat) (closed2 : List Pos) (st : Grid) (openL : List Pos) : Prop where
  hO_nodup : openL.Nodup
  hOC_disj : ∀ p ∈ openL, p ∉ closed2
  hO_sub : ∀ p ∈ openL, p ∈ allPositions cols rows
  hwalls : ∀ p, (st p).isWall = W p
  hendflag : ∀ p, (st p).isEnd = true ↔ p = e
  hOmeta : ∀ p ∈ openL, (st p).hScore = (manhattanDistance p e : ℕ∞) ∧
    (st p).fScore = (st p).gScore + (manhattanDistance p e : ℕ∞) ∧
    (st p).gScore ≠ ⊤
  hs0 : (st s).gScore = 0
  hs_parent : (st s).parent = none
  hsound : ∀ p, ∀ n' : ℕ, (st p).gScore = (n' : ℕ∞) → Reaches cols rows W s n' p
  hsettledC : ∀ p ∈ closed2, ∃ m : ℕ, (st p).gScore = (m : ℕ∞) ∧ MinReach cols rows W s m p
  hclosureOld : ∀ p ∈ closed2, p ≠ current →
    ∀ q ∈ getNeighbors cols rows st p, (st q).gScore ≤ (st p).gScore + 1
  hdisc : ∀ p, (st p).gScore ≠ ⊤ → p ∈ openL ∨ p ∈ closed2
  hchain : ∀ p q, (st p).parent = some q → q ∈ closed2 ∧ adjacent q p ∧
    p ∈ allPositions cols rows ∧ W p = false ∧
    ∃ m : ℕ, (st q).gScore = (m : ℕ∞) ∧ (st p).gScore = ((m + 1 : Nat) : ℕ∞)
  hnoparent : ∀ p, (st p).parent = none → (st p).gScore ≠ ⊤ → p = s
  hcurC : current ∈ closed2
  hcurg : (st current).gScore = (n : ℕ∞)

/-- Concrete 2×1 demonstration grid: start at `(0, 0)`, end at `(1, 0)`,
no walls.  Used to instantiate the claim theorems on a concrete input. -/
def demoGrid : Grid := fun p =>
  { isWall := false, isStart := p == (0, 0), isEnd := p == (1, 0),
    isVisited := false, isPath := false,
    gScore := ⊤, hScore := 0, fScore := ⊤, parent := none }

/-- Concrete 2×1 grid whose single start cell is also the end cell. -/
def demoGridSE : Grid := fun p =>
  { isWall := false, isStart := p == (0, 0), isEnd := p == (0, 0),
    isVisited := false, isPath := false,
    gScore := ⊤, hScore := 0, fScore := ⊤, parent := none }

/-- Concrete 2×2 grid with start `(0, 0)`, end `(1, 1)`, and a wall at both
`(1, 0)` and `(0, 1)`, fully separating start from end. -/
def demoGridBlocked : Grid := fun p =>
  { isWall := p == (1, 0) || p == (0, 1), isStart := p == (0, 0),
    isEnd := p == (1, 1), isVisited := false, isPath := false,
    gScore := ⊤, hScore := 0, fScore := ⊤, parent := none }

/-! ### Basic lemmas on the grid model -/

theorem updateCell_same (g : Grid) (p : Pos) (c : GridNode) : updateCell g p c p = c := by
  simp [updateCell]

theorem updateCell_ne (g : Grid) (p : Pos) (c : GridNode) {q : Pos} (h : q ≠ p) :
    updateCell g p c q = g q := by
  simp [updateCell, h]

theorem mem_allPositions {cols rows : Nat} {p : Pos} :
    p ∈ allPositions cols rows ↔ p.1 < cols ∧ p.2 < rows := by
  constructor
  · intro h
    rcases List.mem_flatMap.mp h with ⟨y, hy, hp⟩
    rcases List.mem_map.mp hp with ⟨x, hx, rfl⟩
    exact ⟨by simpa using List.mem_range.mp hx, by simpa using List.mem_range.mp hy⟩
  · rintro ⟨h1, h2⟩
    exact List.mem_flatMap.mpr ⟨p.2, List.mem_range.mpr h2,
      List.mem_map.mpr ⟨p.1, List.mem_range.mpr h1, by simp⟩⟩

theorem allPositions_nodup (cols rows : Nat) : (allPositions cols rows).Nodup := by
  apply List.nodup_flatMap.mpr
  refine ⟨fun y _ => ?_, ?_⟩
  · exact (List.nodup_range cols).map fun a b h => by simpa using congrArg Prod.fst h
  · refine (List.pairwise_lt_range rows).imp ?_
    intro a b hab
    intro q hqa hqb
    rcases List.mem_map.mp hqa with ⟨x, _, rfl⟩
    rcases List.mem_map.mp hqb with ⟨x', _, h⟩
    exact absurd (congrArg Prod.snd h) (by simpa using hab.ne')

theorem adjacent_ne {p q : Pos} (h : adjacent p q) : p ≠ q := by
  obtain ⟨px, py⟩ := p
  obtain ⟨qx, qy⟩ := q
  simp only [adjacent, Prod.mk.injEq, ne_eq] at h ⊢
  omega

theorem adjacent_symm {p q : Pos} (h : adjacent p q) : adjacent q p := by
  obtain ⟨px, py⟩ := p
  obtain ⟨qx, qy⟩ := q
  simp only [adjacent] at h ⊢
  omega

theorem manhattanDistance_self (p : Pos) : manhattanDistance p p = 0 := by
  simp [manhattanDistance, Nat.dist]

theorem manhattanDistance_eq_zero {p q : Pos} (h : manhattanDistance p q = 0) : p = q := by
  obtain ⟨px, py⟩ := p
  obtain ⟨qx, qy⟩ := q
  simp only [manhattanDistance, Nat.dist, Prod.mk.injEq] at h ⊢
  omega

theorem adjacent_manhattan_le {p q : Pos} (e : Pos) (h : adjacent p q) :
    manhattanDistance p e ≤ manhattanDistance q e + 1 := by
  obtain ⟨px, py⟩ := p
  obtain ⟨qx, qy⟩ := q
  simp only [adjacent] at h
  simp only [manhattanDistance, Nat.dist]
  omega

/-! ### Lemmas on walks and shortest distances -/

theorem walkOk_nil {cols rows : Nat} {W : Pos → Bool} {a t : Pos} :
    WalkOk cols rows W a [] t ↔ a = t := Iff.rfl

theorem walkOk_cons {cols rows : Nat} {W : Pos → Bool} {a q t : Pos} {l : List Pos} :
    WalkOk cols rows W a (q :: l) t ↔
      adjacent a q ∧ q.1 < cols ∧ q.2 < rows ∧ W q = false ∧ WalkOk cols rows W q l t :=
  Iff.rfl

theorem walkOk_snoc {cols rows : Nat} {W : Pos → Bool} :
    ∀ {l : List Pos} {a q t : Pos},
      WalkOk cols rows W a (l ++ [q]) t ↔
        ∃ y, WalkOk cols rows W a l y ∧ adjacent y q ∧ q.1 < cols ∧ q.2 < rows ∧
          W q = false ∧ q = t
  | [], a, q, t => by
    constructor
    · rintro ⟨h1, h2, h3, h4, h5⟩
      exact ⟨a, rfl, h1, h2, h3, h4, h5⟩
    · rintro ⟨y, rfl, h1, h2, h3, h4, h5⟩
      exact ⟨h1, h2, h3, h4, h5⟩
  | p :: l, a, q, t => by
    constructor
    · rintro ⟨h1, h2, h3, h4, h5⟩
      rcases walkOk_snoc.mp h5 with ⟨y, hy, hrest⟩
      exact ⟨y, ⟨h1, h2, h3, h4, hy⟩, hrest⟩
    · rintro ⟨y, ⟨h1, h2, h3, h4, hy⟩, hrest⟩
      exact ⟨h1, h2, h3, h4, walkOk_snoc.mpr ⟨y, hy, hrest⟩⟩

theorem walkOk_target {cols rows : Nat} {W : Pos → Bool} :
    ∀ {l : List Pos} {a t : Pos}, WalkOk cols rows W a l t →
      t = a ∨ (t.1 < cols ∧ t.2 < rows ∧ W t = false)
  | [], _, _, h => Or.inl h.symm
  | q :: l, a, t, h => by
    rcases walkOk_cons.mp h with ⟨_, h2, h3, h4, h5⟩
    rcases walkOk_target h5 with rfl | ht
    · exact Or.inr ⟨h2, h3, h4⟩
    · exact Or.inr ht

theorem reaches_self (cols rows : Nat) (W : Pos → Bool) (s : Pos) :
    Reaches cols rows W s 0 s := ⟨[], rfl, rfl⟩

theorem reaches_step {cols rows : Nat} {W : Pos → Bool} {s p q : Pos} {n : Nat}
    (h : Reaches cols rows W s n p) (hadj : adjacent p q) (h1 : q.1 < cols)
    (h2 : q.2 < rows) (hw : W q = false) : Reaches cols rows W s (n + 1) q := by
  obtain ⟨l, hl, hlen⟩ := h
  exact ⟨l ++ [q], walkOk_snoc.mpr ⟨p, hl, hadj, h1, h2, hw, rfl⟩, by simp [hlen]⟩

theorem reaches_mem_allPositions {cols rows : Nat} {W : Pos → Bool} {s t : Pos} {n : Nat}
    (hs : s ∈ allPositions cols rows) (h : Reaches cols rows W s n t) :
    t ∈ allPositions cols rows := by
  obtain ⟨l, hl, _⟩ := h
  rcases walkOk_target hl with rfl | ⟨h1, h2, _⟩
  · exact hs
  · exact mem_allPositions.mpr ⟨h1, h2⟩

theorem walkOk_manhattan_le {cols rows : Nat} {W : Pos → Bool} (e : Pos) :
    ∀ {l : List Pos} {a b : Pos}, WalkOk cols rows W a l b →
      manhattanDistance a e ≤ l.length + manhattanDistance b e
  | [], _, _, h => by rw [h]; simp
  | q :: l, a, b, h => by
    rcases walkOk_cons.mp h with ⟨h1, _, _, _, h5⟩
    have := walkOk_manhattan_le e h5
    have := adjacent_manhattan_le e h1
    simp only [List.length_cons]
    omega

theorem exists_minReach {cols rows : Nat} {W : Pos → Bool} {s t : Pos}
    (h : ∃ l, WalkOk cols rows W s l t) : ∃ k, MinReach cols rows W s k t := by
  classical
  obtain ⟨l, hl⟩ := h
  have hex : ∃ n, Reaches cols rows W s n t := ⟨l.length, l, hl, rfl⟩
  exact ⟨Nat.find hex, Nat.find_spec hex, fun j hj => Nat.find_le hj⟩

theorem minReach_unique {cols rows : Nat} {W : Pos → Bool} {s t : Pos} {m n : Nat}
    (hm : MinReach cols rows W s m t) (hn : MinReach cols rows W s n t) : m = n :=
  le_antisymm (hm.2 n hn.1) (hn.2 m hm.1)

/-! ### Lemmas on `getNeighbors` -/

theorem mem_ite_singleton {c : Prop} [Decidable c] {x q : Pos} :
    (q ∈ if c then [x] else []) ↔ c ∧ q = x := by
  by_cases h : c <;> simp [h]

theorem mem_getNeighbors {cols rows : Nat} {st : Grid} {p q : Pos}
    (hp1 : p.1 < cols) (hp2 : p.2 < rows) :
    q ∈ getNeighbors cols rows st p ↔
      adjacent p q ∧ q.1 < cols ∧ q.2 < rows ∧ (st q).isWall = false := by
  obtain ⟨px, py⟩ := p
  obtain ⟨qx, qy⟩ := q
  simp only [getNeighbors, List.mem_filter, List.mem_append, mem_ite_singleton,
    Bool.not_eq_eq_eq_not, Bool.not_true, adjacent, Prod.mk.injEq] at *
  constructor
  · rintro ⟨hmem, hwall⟩
    refine ⟨?_, ?_, ?_, hwall⟩ <;> omega
  · rintro ⟨hadj, h1, h2, hwall⟩
    exact ⟨by omega, hwall⟩

theorem self_not_mem_getNeighbors (cols rows : Nat) (st : Grid) (p : Pos) :
    p ∉ getNeighbors cols rows st p := by
  intro h
  obtain ⟨px, py⟩ := p
  rcases List.mem_filter.mp h with ⟨hmem, _⟩
  simp only [List.mem_append, mem_ite_singleton, Prod.mk.injEq] at hmem
  omega

theorem getNeighbors_congr {st st' : Grid} (cols rows : Nat) (p : Pos)
    (h : ∀ q, (st q).isWall = (st' q).isWall) :
    getNeighbors cols rows st p = getNeighbors cols rows st' p := by
  simp only [getNeighbors, h]

theorem getNeighbors_sublist (cols rows : Nat) (st : Grid) (p : Pos) :
    (getNeighbors cols rows st p).Sublist
      [(p.1, p.2 - 1), (p.1, p.2 + 1), (p.1 - 1, p.2), (p.1 + 1, p.2)] := by
  refine List.Sublist.trans (List.filter_sublist _) ?_
  show List.Sublist _
    ((([(p.1, p.2 - 1)] ++ [(p.1, p.2 + 1)]) ++ [(p.1 - 1, p.2)]) ++ [(p.1 + 1, p.2)])
  refine List.Sublist.append (List.Sublist.append (List.Sublist.append ?_ ?_) ?_) ?_
  · by_cases h : 0 < p.2 <;> simp [h]
  · by_cases h : p.2 < rows - 1 <;> simp [h]
  · by_cases h : 0 < p.1 <;> simp [h]
  · by_cases h : p.1 < cols - 1 <;> simp [h]

/-! ### Lemmas on the selection sorts -/

theorem sortByGScore_cons {st : Grid} {U rest : List Pos} {current : Pos}
    (h : sortByGScore st U = current :: rest) :
    U.Perm (current :: rest) ∧ current ∈ U ∧
      ∀ u ∈ U, (st current).gScore ≤ (st u).gScore := by
  have hperm : (current :: rest).Perm U := by
    rw [← h]; exact List.perm_insertionSort (gScoreLE st) U
  have hsorted : List.Sorted (gScoreLE st) (current :: rest) := by
    rw [← h]; exact List.sorted_insertionSort (gScoreLE st) U
  refine ⟨hperm.symm, hperm.mem_iff.mp (List.mem_cons_self _ _), fun u hu => ?_⟩
  rcases List.mem_cons.mp (hperm.mem_iff.mpr hu) with rfl | hu'
  · exact le_refl _
  · exact List.rel_of_sorted_cons hsorted u hu'

theorem sortByFScore_cons {st : Grid} {U rest : List Pos} {current : Pos}
    (h : sortByFScore st U = current :: rest) :
    U.Perm (current :: rest) ∧ current ∈ U ∧
      ∀ u ∈ U, (st current).fScore ≤ (st u).fScore := by
  have hperm : (current :: rest).Perm U := by
    rw [← h]; exact List.perm_insertionSort (fScoreLE st) U
  have hsorted : List.Sorted (fScoreLE st) (current :: rest) := by
    rw [← h]; exact List.sorted_insertionSort (fScoreLE st) U
  refine ⟨hperm.symm, hperm.mem_iff.mp (List.mem_cons_self _ _), fun u hu => ?_⟩
  rcases List.mem_cons.mp (hperm.mem_iff.mpr hu) with rfl | hu'
  · exact le_refl _
  · exact List.rel_of_sorted_cons hsorted u hu'

theorem sortByGScore_nil {st : Grid} {U : List Pos} (h : sortByGScore st U = []) :
    U = [] := by
  have hperm : ([] : List Pos).Perm U := by
    rw [← h]; exact List.perm_insertionSort (gScoreLE st) U
  exact hperm.symm.eq_nil

theorem sortByFScore_nil {st : Grid} {U : List Pos} (h : sortByFScore st U = []) :
    U = [] := by
  have hperm : ([] : List Pos).Perm U := by
    rw [← h]; exact List.perm_insertionSort (fScoreLE st) U
  exact hperm.symm.eq_nil

/-! ### Coercion helpers for `ℕ∞` scores -/

theorem enat_coe_succ (m : Nat) : ((m : ℕ∞) + 1) = ((m + 1 : Nat) : ℕ∞) := by
  push_cast; ring

theorem enat_ne_top (m : Nat) : ((m : ℕ∞)) ≠ ⊤ := by simp

/-! ### Path reconstruction -/

theorem reconstructPath_spec {st : Grid} {s : Pos}
    (hchain : ∀ p q, (st p).parent = some q → adjacent q p ∧
      ∃ m : ℕ, (st q).gScore = (m : ℕ∞) ∧ (st p).gScore = ((m + 1 : Nat) : ℕ∞))
    (hnoparent : ∀ p, (st p).parent = none → (st p).gScore ≠ ⊤ → p = s)
    (hs0 : (st s).gScore = 0) :
    ∀ n : ℕ, ∀ fuel : Nat, ∀ p : Pos, (st p).gScore = (n : ℕ∞) → n ≤ fuel →
      (reconstructPath st fuel p).length = n + 1 ∧
      (reconstructPath st fuel p).head? = some s ∧
      (reconstructPath st fuel p).getLast? = some p ∧
      List.Chain' adjacent (reconstructPath st fuel p) := by
  intro n
  induction n using Nat.strong_induction_on with
  | _ n ihn =>
    intro fuel p hg hle
    cases hpar : (st p).parent with
    | none =>
      have hps : p = s := hnoparent p hpar (by simp [hg])
      have hn0 : n = 0 := by
        have := hg
        rw [hps, hs0] at this
        exact_mod_cast this.symm
      subst hps
      cases fuel <;> simp [reconstructPath, hpar, hn0]
    | some q =>
      rcases hchain p q hpar with ⟨hadj, m, hgq, hgp⟩
      have hnm : n = m + 1 := by
        rw [hg] at hgp
        exact_mod_cast hgp
      cases fuel with
      | zero => omega
      | succ f =>
        have hmf : m ≤ f := by omega
        obtain ⟨ih1, ih2, ih3, ih4⟩ := ihn m (by omega) f q hgq hmf
        have hred : reconstructPath st (f + 1) p = reconstructPath st f q ++ [p] := by
          simp [reconstructPath, hpar]
        have hne : reconstructPath st f q ≠ [] := by
          intro hnil
          rw [hnil] at ih1
          simp at ih1
        refine ⟨?_, ?_, ?_, ?_⟩
        · rw [hred]; simp [ih1, hnm]
        · rw [hred]
          obtain ⟨x, l', hxl⟩ := List.exists_cons_of_ne_nil hne
          rw [hxl]
          rw [hxl] at ih2
          simpa using ih2
        · rw [hred]
          simp [List.getLast?_append]
        · rw [hred]
          rw [List.chain'_append]
          refine ⟨ih4, List.chain'_singleton p, ?_⟩
          intro x hx y hy
          rw [ih3] at hx
          simp at hx hy
          rw [← hx, ← hy]
          exact hadj

/-! ### The Dijkstra relaxation fold -/

theorem dijkstraRelax_fold_spec (current : Pos) :
    ∀ (ns : List Pos) (st : Grid), current ∉ ns →
      ((ns.foldl (dijkstraRelax current) st) current = st current) ∧
      (∀ q, (ns.foldl (dijkstraRelax current) st) q = st q ∨
        (q ∈ ns ∧
          (ns.foldl (dijkstraRelax current) st) q =
            { st q with gScore := (st current).gScore + 1,
                        fScore := (st current).gScore + 1, parent := some current } ∧
          (st current).gScore + 1 < (st q).gScore)) ∧
      (∀ q ∈ ns, ((ns.foldl (dijkstraRelax current) st) q).gScore ≤ (st current).gScore + 1)
  | [], st, _ => ⟨rfl, fun q => Or.inl rfl, fun q hq => absurd hq (List.not_mem_nil q)⟩
  | nbr :: ns', st, hcur => by
    have hcne : current ≠ nbr := fun h => hcur (h ▸ List.mem_cons_self _ _)
    have hcur' : current ∉ ns' := fun h => hcur (List.mem_cons_of_mem _ h)
    have hstep : (nbr :: ns').foldl (dijkstraRelax current) st =
        ns'.foldl (dijkstraRelax current) (dijkstraRelax current st nbr) := rfl
    set st1 := dijkstraRelax current st nbr with hst1
    have hst1cur : st1 current = st current := by
      rw [hst1]
      simp only [dijkstraRelax]
      split
      · exact updateCell_ne _ _ _ hcne
      · rfl
    have hst1cases : (st1 = st ∧ ¬((st current).gScore + 1 < (st nbr).gScore)) ∨
        (st1 nbr = { st nbr with gScore := (st current).gScore + 1,
                                 fScore := (st current).gScore + 1,
                                 parent := some current } ∧
         (∀ q, q ≠ nbr → st1 q = st q) ∧
         (st current).gScore + 1 < (st nbr).gScore) := by
      rw [hst1]
      simp only [dijkstraRelax]
      split
      · exact Or.inr ⟨updateCell_same _ _ _, fun q hq => updateCell_ne _ _ _ hq, by assumption⟩
      · exact Or.inl ⟨rfl, by assumption⟩
    obtain ⟨ihcur, ihcases, ihbound⟩ := dijkstraRelax_fold_spec current ns' st1 hcur'
    rw [hstep]
    refine ⟨by rw [ihcur, hst1cur], ?_, ?_⟩
    · intro q
      rcases ihcases q with hq | ⟨hqmem, hqeq, hqlt⟩
      · -- the tail fold left q unchanged
        rcases hst1cases with ⟨hid, _⟩ | ⟨hnbr, hother, hlt⟩
        · exact Or.inl (by rw [hq, hid])
        · by_cases hqn : q = nbr
          · subst hqn
            exact Or.inr ⟨List.mem_cons_self _ _, by rw [hq, hnbr], hlt⟩
          · exact Or.inl (by rw [hq, hother q hqn])
      · -- the tail fold updated q
        have hqnbr : q ≠ nbr := by
          intro h
          subst h
          rcases hst1cases with ⟨hid, hnlt⟩ | ⟨hnbr, _, _⟩
          · rw [hid] at hqlt
            exact hnlt hqlt
          · rw [hst1cur, hnbr] at hqlt
            simp at hqlt
        have hq1 : st1 q = st q := by
          rcases hst1cases with ⟨hid, _⟩ | ⟨_, hother, _⟩
          · rw [hid]
          · exact hother q hqnbr
        refine Or.inr ⟨List.mem_cons_of_mem _ hqmem, ?_, ?_⟩
        · rw [hqeq, hq1, hst1cur]
        · rw [hst1cur, hq1] at hqlt
          exact hqlt
    · intro q hq
      rcases List.mem_cons.mp hq with rfl | hq'
      · -- q = nbr : bounded after its own step, stable afterwards
        rcases ihcases q with hqu | ⟨_, hqeq, _⟩
        · rw [hqu]
          rcases hst1cases with ⟨hid, hnlt⟩ | ⟨hnbr, _, _⟩
          · rw [hid]
            exact le_of_not_lt hnlt
          · rw [hnbr]
        · rw [hqeq]
          simp only []
          rw [hst1cur]
      · have := ihbound q hq'
        rw [hst1cur] at this
        exact this

/-! ### Dijkstra: frontier lemma, settling, invariant preservation -/

theorem dijkstra_frontier {cols rows : Nat} {s e : Pos} {W : Pos → Bool}
    {st : Grid} {U visited : List Pos}
    (inv : DInv cols rows s e W st U visited) (hs : s ∈ allPositions cols rows) :
    ∀ (l : List Pos) (z : Pos), WalkOk cols rows W s l z → z ∉ visited →
      ∃ p ∈ U, (st p).gScore ≤ (l.length : ℕ∞) := by
  intro l
  induction l using List.reverseRecOn with
  | nil =>
    intro z hw hz
    have hzs : s = z := hw
    subst hzs
    have hsU : s ∈ U := by
      rcases inv.hpart s hs with h | h
      · exact h
      · exact absurd h hz
    exact ⟨s, hsU, by simp [inv.hs0]⟩
  | append_singleton l' q ih =>
    intro z hw hz
    rcases walkOk_snoc.mp hw with ⟨y, hy, hadj, h1, h2, hwall, rfl⟩
    by_cases hyv : y ∈ visited
    · rcases inv.hsettled y hyv with ⟨m, hgy, hmin⟩
      have hmle : m ≤ l'.length := hmin.2 l'.length ⟨l', hy, rfl⟩
      have hybounds := mem_allPositions.mp (inv.hvis_sub y hyv)
      have hqnb : q ∈ getNeighbors cols rows st y :=
        (mem_getNeighbors hybounds.1 hybounds.2).mpr
          ⟨hadj, h1, h2, by rw [inv.hwalls]; exact hwall⟩
      have hcl := inv.hclosure y hyv q hqnb
      have hqU : q ∈ U := by
        rcases inv.hpart q (mem_allPositions.mpr ⟨h1, h2⟩) with h | h
        · exact h
        · exact absurd h hz
      refine ⟨q, hqU, ?_⟩
      calc (st q).gScore ≤ (st y).gScore + 1 := hcl
        _ = ((m + 1 : Nat) : ℕ∞) := by rw [hgy, enat_coe_succ]
        _ ≤ ((l' ++ [q]).length : ℕ∞) := by
            simp only [List.length_append, List.length_cons, List.length_nil]
            exact_mod_cast by omega
    · rcases ih y hy hyv with ⟨p, hp, hb⟩
      refine ⟨p, hp, hb.trans ?_⟩
      simp only [List.length_append, List.length_cons, List.length_nil]
      exact_mod_cast by omega

theorem dijkstra_settle {cols rows : Nat} {s e : Pos} {W : Pos → Bool}
    {st : Grid} {U rest visited : List Pos} {current : Pos}
    (inv : DInv cols rows s e W st U visited) (hs : s ∈ allPositions cols rows)
    (hsort : sortByGScore st U = current :: rest) {n : ℕ}
    (hg : (st current).gScore = (n : ℕ∞)) :
    MinReach cols rows W s n current := by
  obtain ⟨hperm, hcurU, hmin⟩ := sortByGScore_cons hsort
  have hreach : Reaches cols rows W s n current := inv.hsound current n hg
  obtain ⟨lw, hlw, hlen⟩ := hreach
  obtain ⟨k, hk⟩ := exists_minReach ⟨lw, hlw⟩
  obtain ⟨lk, hlk, hlklen⟩ := hk.1
  have hnotvis : current ∉ visited := fun hc => (inv.hdisj current hc) hcurU
  obtain ⟨p, hpU, hpb⟩ := dijkstra_frontier inv hs lk current hlk hnotvis
  have h1 : ((n : ℕ∞)) ≤ (k : ℕ∞) := by
    rw [← hg]
    calc (st current).gScore ≤ (st p).gScore := hmin p hpU
      _ ≤ (lk.length : ℕ∞) := hpb
      _ = (k : ℕ∞) := by rw [hlklen]
  have h2 : k ≤ n := hk.2 n ⟨lw, hlw, hlen⟩
  have hnk : n = k := le_antisymm (by exact_mod_cast h1) h2
  rw [hnk]; exact hk

theorem dijkstra_step_inv {cols rows : Nat} {s e : Pos} {W : Pos → Bool}
    {st : Grid} {U rest visited : List Pos} {current : Pos}
    (inv : DInv cols rows s e W st U visited) (hs : s ∈ allPositions cols rows)
    (hsort : sortByGScore st U = current :: rest) {n : ℕ}
    (hg : (st current).gScore = (n : ℕ∞))
    (hnotend : (st current).isEnd = false) :
    DInv cols rows s e W
      ((getNeighbors cols rows st current).foldl (dijkstraRelax current) st)
      rest (visited ++ [current]) := by
  obtain ⟨hperm, hcurU, hmin⟩ := sortByGScore_cons hsort
  have hcurns : current ∉ getNeighbors cols rows st current :=
    self_not_mem_getNeighbors cols rows st current
  obtain ⟨hfcur, hfcases, hfbound⟩ :=
    dijkstraRelax_fold_spec current (getNeighbors cols rows st current) st hcurns
  set ns := getNeighbors cols rows st current with hns
  set st2 := ns.foldl (dijkstraRelax current) st with hst2
  have hUnodup2 : (current :: rest).Nodup := hperm.nodup inv.hU_nodup
  have hcur_notin_rest : current ∉ rest := (List.nodup_cons.mp hUnodup2).1
  have hrest_nodup : rest.Nodup := (List.nodup_cons.mp hUnodup2).2
  have hrest_sub_U : ∀ p ∈ rest, p ∈ U := fun p hp =>
    hperm.mem_iff.mpr (List.mem_cons_of_mem _ hp)
  have hcur_mem_all : current ∈ allPositions cols rows := inv.hU_sub current hcurU
  have hcur_bounds := mem_allPositions.mp hcur_mem_all
  have hnotvis : current ∉ visited := fun hc => (inv.hdisj current hc) hcurU
  have hsettle_cur : MinReach cols rows W s n current := dijkstra_settle inv hs hsort hg
  have hcur_ne_e : current ≠ e := by
    intro h
    rw [(inv.hendflag current).mpr h] at hnotend
    exact Bool.true_eq_false.mp hnotend
  have hns_mem : ∀ q ∈ ns, adjacent current q ∧ q.1 < cols ∧ q.2 < rows ∧ W q = false := by
    intro q hq
    rw [hns] at hq
    rcases (mem_getNeighbors hcur_bounds.1 hcur_bounds.2).mp hq with ⟨ha, h1, h2, hw⟩
    exact ⟨ha, h1, h2, by rw [← inv.hwalls]; exact hw⟩
  have ht : (st current).gScore + 1 = ((n + 1 : Nat) : ℕ∞) := by rw [hg, enat_coe_succ]
  have huntouched : ∀ q, (st q).gScore ≤ (n : ℕ∞) → st2 q = st q := by
    intro q hq
    rcases hfcases q with h | ⟨_, _, hlt⟩
    · exact h
    · exfalso
      rw [ht] at hlt
      have hcon := lt_of_lt_of_le hlt hq
      have : (n + 1 : Nat) < n := by exact_mod_cast hcon
      omega
  have hdec : ∀ q, (st2 q).gScore ≤ (st q).gScore := by
    intro q
    rcases hfcases q with h | ⟨_, h, hlt⟩
    · rw [h]
    · rw [h]; exact le_of_lt hlt
  have hflagsW : ∀ q, (st2 q).isWall = (st q).isWall := by
    intro q
    rcases hfcases q with h | ⟨_, h, _⟩ <;> rw [h]
  have hflagsE : ∀ q, (st2 q).isEnd = (st q).isEnd := by
    intro q
    rcases hfcases q with h | ⟨_, h, _⟩ <;> rw [h]
  have hnbr2 : ∀ p, getNeighbors cols rows st2 p = getNeighbors cols rows st p :=
    fun p => getNeighbors_congr cols rows p hflagsW
  have hvis_le : ∀ p ∈ visited, (st p).gScore ≤ ((n : ℕ∞)) := by
    intro p hp
    have := inv.hmono p hp current hcurU
    rw [hg] at this
    exact this
  have hvis_untouched : ∀ p ∈ visited, st2 p = st p := fun p hp =>
    huntouched p (hvis_le p hp)
  refine
    { hU_nodup := hrest_nodup
      hU_sub := fun p hp => inv.hU_sub p (hrest_sub_U p hp)
      hvis_nodup := ?_
      hvis_sub := ?_
      hpart := ?_
      hdisj := ?_
      hE_notvis := ?_
      hwalls := fun p => by rw [hflagsW p]; exact inv.hwalls p
      hendflag := fun p => by rw [hflagsE p]; exact inv.hendflag p
      hs0 := ?_
      hs_parent := ?_
      hsound := ?_
      hsettled := ?_
      hclosure := ?_
      hmono := ?_
      hchain := ?_
      hnoparent := ?_ }
  · rw [List.nodup_append]
    exact ⟨inv.hvis_nodup, List.nodup_singleton _,
      fun a ha hb => by
        rcases List.mem_singleton.mp hb with rfl
        exact hnotvis ha⟩
  · intro p hp
    rcases List.mem_append.mp hp with h | h
    · exact inv.hvis_sub p h
    · rcases List.mem_singleton.mp h with rfl
      exact hcur_mem_all
  · intro p hp
    rcases inv.hpart p hp with h | h
    · rcases List.mem_cons.mp (hperm.mem_iff.mp h) with rfl | h'
      · exact Or.inr (List.mem_append.mpr (Or.inr (List.mem_singleton.mpr rfl)))
      · exact Or.inl h'
    · exact Or.inr (List.mem_append.mpr (Or.inl h))
  · intro p hp
    rcases List.mem_append.mp hp with h | h
    · exact fun hr => (inv.hdisj p h) (hrest_sub_U p hr)
    · rcases List.mem_singleton.mp h with rfl
      exact hcur_notin_rest
  · intro h
    rcases List.mem_append.mp h with h | h
    · exact inv.hE_notvis h
    · rcases List.mem_singleton.mp h with h
      exact hcur_ne_e h.symm
  · have hle0 : (st s).gScore ≤ ((n : ℕ∞)) := by rw [inv.hs0]; exact zero_le _
    rw [huntouched s hle0]
    exact inv.hs0
  · have hle0 : (st s).gScore ≤ ((n : ℕ∞)) := by rw [inv.hs0]; exact zero_le _
    rw [huntouched s hle0]
    exact inv.hs_parent
  · intro p m hm
    rcases hfcases p with h | ⟨hpns, h, _⟩
    · rw [h] at hm
      exact inv.hsound p m hm
    · rw [h] at hm
      have hm' : (st current).gScore + 1 = ((m : Nat) : ℕ∞) := hm
      rw [ht] at hm'
      have : (n + 1 : Nat) = m := by exact_mod_cast hm'
      rcases hns_mem p hpns with ⟨hadj, h1, h2, hw⟩
      rw [← this]
      exact reaches_step (inv.hsound current n hg) hadj h1 h2 hw
  · intro p hp
    rcases List.mem_append.mp hp with h | h
    · rcases inv.hsettled p h with ⟨m, hgm, hminm⟩
      exact ⟨m, by rw [hvis_untouched p h]; exact hgm, hminm⟩
    · rcases List.mem_singleton.mp h with rfl
      exact ⟨n, by rw [hfcur]; exact hg, hsettle_cur⟩
  · intro p hp q hq
    rw [hnbr2] at hq
    rcases List.mem_append.mp hp with h | h
    · have := inv.hclosure p h q hq
      rw [hvis_untouched p h]
      exact le_trans (hdec q) this
    · rcases List.mem_singleton.mp h with rfl
      rw [hfcur]
      exact hfbound q hq
  · intro p hp q hq
    have hq_ge : ((n : ℕ∞)) ≤ (st2 q).gScore := by
      rcases hfcases q with h | ⟨_, h, _⟩
      · rw [h, ← hg]
        exact hmin q (hrest_sub_U q hq)
      · rw [h]
        show ((n : ℕ∞)) ≤ (st current).gScore + 1
        rw [ht]
        exact_mod_cast by omega
    rcases List.mem_append.mp hp with h | h
    · rw [hvis_untouched p h]
      exact le_trans (hvis_le p h) hq_ge
    · rcases List.mem_singleton.mp h with rfl
      rw [hfcur, hg]
      exact hq_ge
  · intro p q hpq
    rcases hfcases p with h | ⟨hpns, h, _⟩
    · rw [h] at hpq
      rcases inv.hchain p q hpq with ⟨hqvis, hadj, hmem, hwp, m, hgq, hgp⟩
      have hqle : (st q).gScore ≤ ((n : ℕ∞)) := hvis_le q hqvis
      refine ⟨List.mem_append.mpr (Or.inl hqvis), hadj, hmem, hwp, m, ?_, ?_⟩
      · rw [huntouched q hqle]; exact hgq
      · rw [h]; exact hgp
    · rw [h] at hpq
      have hqcur : q = current := by
        have h' : some current = some q := hpq
        exact (Option.some_injective _ h').symm
      rcases hns_mem p hpns with ⟨hadj, h1, h2, hw⟩
      refine ⟨?_, ?_, mem_allPositions.mpr ⟨h1, h2⟩, hw, n, ?_, ?_⟩
      · rw [hqcur]
        exact List.mem_append.mpr (Or.inr (List.mem_singleton.mpr rfl))
      · rw [hqcur]; exact hadj
      · rw [hqcur, hfcur]; exact hg
      · rw [h]
        show (st current).gScore + 1 = ((n + 1 : Nat) : ℕ∞)
        exact ht
  · intro p hpar hgp
    rcases hfcases p with h | ⟨_, h, _⟩
    · rw [h] at hpar hgp
      exact inv.hnoparent p hpar hgp
    · rw [h] at hpar
      exact absurd hpar (by simp)

theorem dijkstraInit_same (grid : Grid) (s : Pos) :
    dijkstraInit grid s s = { resetForDijkstra grid s with gScore := 0, fScore := 0 } := by
  simp [dijkstraInit, updateCell_same]

theorem dijkstraInit_other (grid : Grid) {s p : Pos} (h : p ≠ s) :
    dijkstraInit grid s p = resetForDijkstra grid p := by
  simp [dijkstraInit, updateCell_ne _ _ _ h]

theorem dijkstraInit_inv {cols rows : Nat} {s e : Pos} (grid : Grid)
    (hs : s ∈ allPositions cols rows)
    (hend : ∀ p, (grid p).isEnd = true ↔ p = e) :
    DInv cols rows s e (wallOf grid) (dijkstraInit grid s) (allPositions cols rows) [] := by
  have hwall : ∀ p, (dijkstraInit grid s p).isWall = (grid p).isWall := by
    intro p
    by_cases h : p = s
    · subst h; rw [dijkstraInit_same]; rfl
    · rw [dijkstraInit_other grid h]; rfl
  have hendf : ∀ p, (dijkstraInit grid s p).isEnd = (grid p).isEnd := by
    intro p
    by_cases h : p = s
    · subst h; rw [dijkstraInit_same]; rfl
    · rw [dijkstraInit_other grid h]; rfl
  have hparent : ∀ p, (dijkstraInit grid s p).parent = none := by
    intro p
    by_cases h : p = s
    · subst h; rw [dijkstraInit_same]; rfl
    · rw [dijkstraInit_other grid h]; rfl
  have hgtop : ∀ p, p ≠ s → (dijkstraInit grid s p).gScore = ⊤ := by
    intro p h
    rw [dijkstraInit_other grid h]; rfl
  have hg0 : (dijkstraInit grid s s).gScore = 0 := by
    rw [dijkstraInit_same]
  refine
    { hU_nodup := allPositions_nodup cols rows
      hU_sub := fun p hp => hp
      hvis_nodup := List.nodup_nil
      hvis_sub := fun p hp => absurd hp (List.not_mem_nil p)
      hpart := fun p hp => Or.inl hp
      hdisj := fun p hp => absurd hp (List.not_mem_nil p)
      hE_notvis := List.not_mem_nil e
      hwalls := fun p => hwall p
      hendflag := fun p => by rw [hendf p]; exact hend p
      hs0 := hg0
      hs_parent := hparent s
      hsound := ?_
      hsettled := fun p hp => absurd hp (List.not_mem_nil p)
      hclosure := fun p hp => absurd hp (List.not_mem_nil p)
      hmono := fun p hp => absurd hp (List.not_mem_nil p)
      hchain := ?_
      hnoparent := ?_ }
  · intro p n hn
    by_cases h : p = s
    · rw [h, hg0] at hn
      have hn0 : n = 0 := by exact_mod_cast hn.symm
      rw [hn0, h]
      exact reaches_self cols rows (wallOf grid) s
    · rw [hgtop p h] at hn
      exact absurd hn.symm (enat_ne_top n)
  · intro p q hpq
    rw [hparent p] at hpq
    exact absurd hpq (by simp)
  · intro p _ hgp
    by_contra h
    exact hgp (hgtop p h)

/-! ### Dijkstra: master loop theorem -/

theorem dijkstraLoop_spec (cols rows : Nat) (s e : Pos) (W : Pos → Bool)
    (hs : s ∈ allPositions cols rows) (he : e ∈ allPositions cols rows) :
    ∀ (fuel : Nat) (st : Grid) (U visited : List Pos), U.length ≤ fuel →
      DInv cols rows s e W st U visited →
      (dijkstraLoop cols rows fuel st U visited ≠ .missingEndpoints ∧
        dijkstraLoop cols rows fuel st U visited ≠ .fuelExceeded) ∧
      (∀ rv, dijkstraLoop cols rows fuel st U visited = .noPath rv →
        (∀ l, ¬WalkOk cols rows W s l e) ∧
        (∀ u, ∀ j : ℕ, Reaches cols rows W s j u → u ∈ rv)) ∧
      (∀ rvis rpath rframes,
        dijkstraLoop cols rows fuel st U visited = .success rvis rpath rframes →
        ∃ n : ℕ, MinReach cols rows W s n e ∧ rpath.length = n + 1 ∧
          rpath.head? = some s ∧ rpath.getLast? = some e ∧
          List.Chain' adjacent rpath ∧ rvis.Nodup ∧
          (∀ u, ∀ j : ℕ, MinReach cols rows W s j u → j < n → u ∈ rvis))
  | 0, st, U, visited, hlen, inv => by
    have hU : U = [] := List.length_eq_zero.mp (Nat.le_zero.mp hlen)
    have hFalse : False := by
      rcases inv.hpart e he with h | h
      · rw [hU] at h; exact List.not_mem_nil e h
      · exact inv.hE_notvis h
    exact hFalse.elim
  | fuel + 1, st, U, visited, hlen, inv => by
    cases hsort : sortByGScore st U with
    | nil =>
      have hU : U = [] := sortByGScore_nil hsort
      have hFalse : False := by
        rcases inv.hpart e he with h | h
        · rw [hU] at h; exact List.not_mem_nil e h
        · exact inv.hE_notvis h
      exact hFalse.elim
    | cons current rest =>
      obtain ⟨hperm, hcurU, hmin⟩ := sortByGScore_cons hsort
      by_cases hfin : (st current).gScore = ⊤
      · have hout : dijkstraLoop cols rows (fuel + 1) st U visited = .noPath visited := by
          simp [dijkstraLoop, hsort, hfin]
        rw [hout]
        refine ⟨⟨by simp, by simp⟩, ?_, ?_⟩
        · intro rv hrv
          have hrveq : visited = rv := by injection hrv
          subst hrveq
          constructor
          · intro l hl
            obtain ⟨p, hpU, hpb⟩ := dijkstra_frontier inv hs l e hl inv.hE_notvis
            have hle := hmin p hpU
            rw [hfin] at hle
            rw [top_le_iff.mp hle] at hpb
            exact absurd (top_le_iff.mp hpb) (enat_ne_top _)
          · intro u j hru
            by_contra hu
            obtain ⟨lu, hlu, _⟩ := hru
            obtain ⟨p, hpU, hpb⟩ := dijkstra_frontier inv hs lu u hlu hu
            have hle := hmin p hpU
            rw [hfin] at hle
            rw [top_le_iff.mp hle] at hpb
            exact absurd (top_le_iff.mp hpb) (enat_ne_top _)
        · intro rvis rpath rframes h
          simp at h
      · obtain ⟨n, hg⟩ : ∃ n : ℕ, (st current).gScore = (n : ℕ∞) := by
          cases hc : (st current).gScore with
          | top => exact absurd hc hfin
          | coe n => exact ⟨n, rfl⟩
        by_cases hend : (st current).isEnd = true
        · have hcur_e : current = e := (inv.hendflag current).mp hend
          have hsettle : MinReach cols rows W s n current := dijkstra_settle inv hs hsort hg
          have hpath := reconstructPath_spec
            (fun p q h => ⟨(inv.hchain p q h).2.1, (inv.hchain p q h).2.2.2.2⟩)
            inv.hnoparent inv.hs0 n n current hg (le_refl n)
          have hout : dijkstraLoop cols rows (fuel + 1) st U visited =
              .success visited (reconstructPath st n current)
                (animateAlgorithm st visited (reconstructPath st n current)) := by
            simp [dijkstraLoop, hsort, hfin, hend, hg, ENat.toNat_coe]
          rw [hout]
          refine ⟨⟨by simp, by simp⟩, ?_, ?_⟩
          · intro rv hrv
            simp at hrv
          · intro rvis rpath rframes h
            injection h with e1 e2 e3
            subst e1
            subst e2
            refine ⟨n, hcur_e ▸ hsettle, hpath.1, hpath.2.1, hcur_e ▸ hpath.2.2.1,
              hpath.2.2.2, inv.hvis_nodup, ?_⟩
            intro u j hju hjn
            by_contra hu
            obtain ⟨lu, hlu, hlulen⟩ := hju.1
            obtain ⟨p, hpU, hpb⟩ := dijkstra_frontier inv hs lu u hlu hu
            have hle := hmin p hpU
            rw [hg] at hle
            have : ((n : ℕ∞)) ≤ (j : ℕ∞) := le_trans hle (by rw [← hlulen]; exact hpb)
            have hnj : n ≤ j := by exact_mod_cast this
            omega
        · have hnotend : (st current).isEnd = false := by
            cases hcend : (st current).isEnd
            · rfl
            · exact absurd hcend hend
          have inv2 := dijkstra_step_inv inv hs hsort hg hnotend
          have hlen2 : rest.length ≤ fuel := by
            have hl := hperm.length_eq
            simp only [List.length_cons] at hl
            omega
          have hout : dijkstraLoop cols rows (fuel + 1) st U visited =
              dijkstraLoop cols rows fuel
                ((getNeighbors cols rows st current).foldl (dijkstraRelax current) st)
                rest (visited ++ [current]) := by
            simp [dijkstraLoop, hsort, hfin, hnotend]
          rw [hout]
          exact dijkstraLoop_spec cols rows s e W hs he fuel _ rest
            (visited ++ [current]) hlen2 inv2

/-! ### A*: initial invariant, frontier lemma, settling -/

theorem enat_le_coe {a : ℕ∞} {n : ℕ} (h : a ≤ (n : ℕ∞)) :
    ∃ m : ℕ, a = (m : ℕ∞) ∧ m ≤ n := by
  lift a to ℕ using (h.trans_lt (WithTop.coe_lt_top n)).ne
  exact ⟨a, rfl, by exact_mod_cast h⟩

theorem aStarInit_same (grid : Grid) (s e : Pos) :
    aStarInit grid s e s =
      { resetForAStar grid s with gScore := 0,
                                  hScore := (manhattanDistance s e : ℕ∞),
                                  fScore := (manhattanDistance s e : ℕ∞) } := by
  simp [aStarInit, updateCell_same]

theorem aStarInit_other (grid : Grid) (e : Pos) {s p : Pos} (h : p ≠ s) :
    aStarInit grid s e p = resetForAStar grid p := by
  simp [aStarInit, updateCell_ne _ _ _ h]

theorem aStarInit_inv {cols rows : Nat} {s e : Pos} (grid : Grid)
    (hs : s ∈ allPositions cols rows)
    (hend : ∀ p, (grid p).isEnd = true ↔ p = e) :
    AInv cols rows s e (wallOf grid) (aStarInit grid s e) [s] [] [] := by
  have hwall : ∀ p, (aStarInit grid s e p).isWall = (grid p).isWall := by
    intro p
    by_cases h : p = s
    · rw [h, aStarInit_same]; rfl
    · rw [aStarInit_other grid e h]; rfl
  have hendf : ∀ p, (aStarInit grid s e p).isEnd = (grid p).isEnd := by
    intro p
    by_cases h : p = s
    · rw [h, aStarInit_same]; rfl
    · rw [aStarInit_other grid e h]; rfl
  have hparent : ∀ p, (aStarInit grid s e p).parent = none := by
    intro p
    by_cases h : p = s
    · rw [h, aStarInit_same]; rfl
    · rw [aStarInit_other grid e h]; rfl
  have hgtop : ∀ p, p ≠ s → (aStarInit grid s e p).gScore = ⊤ := by
    intro p h
    rw [aStarInit_other grid e h]; rfl
  have hg0 : (aStarInit grid s e s).gScore = 0 := by rw [aStarInit_same]
  refine
    { hO_nodup := List.nodup_singleton s
      hC_nodup := List.nodup_nil
      hOC_disj := fun p _ => List.not_mem_nil p
      hO_sub := ?_
      hC_sub := fun p hp => absurd hp (List.not_mem_nil p)
      hwalls := fun p => hwall p
      hendflag := fun p => by rw [hendf p]; exact hend p
      hOmeta := ?_
      hs0 := hg0
      hs_parent := hparent s
      hsound := ?_
      hsettledC := fun p hp => absurd hp (List.not_mem_nil p)
      hclosureC := fun p hp => absurd hp (List.not_mem_nil p)
      hdisc := ?_
      hE_notC := List.not_mem_nil e
      hchain := ?_
      hnoparent := ?_
      hvisC := fun p => by simp
      hvis_nodup := List.nodup_nil
      hvisBound := fun p hp => absurd hp (List.not_mem_nil p) }
  · intro p hp
    rcases List.mem_singleton.mp hp with rfl
    exact hs
  · intro p hp
    rcases List.mem_singleton.mp hp with rfl
    rw [aStarInit_same]
    refine ⟨rfl, ?_, by simp⟩
    show (manhattanDistance p e : ℕ∞) = 0 + (manhattanDistance p e : ℕ∞)
    rw [zero_add]
  · intro p n hn
    by_cases h : p = s
    · rw [h, hg0] at hn
      have hn0 : n = 0 := by exact_mod_cast hn.symm
      rw [hn0, h]
      exact reaches_self cols rows (wallOf grid) s
    · rw [hgtop p h] at hn
      exact absurd hn.symm (enat_ne_top n)
  · intro p hp
    by_cases h : p = s
    · exact Or.inl (h ▸ List.mem_singleton.mpr rfl)
    · exact absurd (hgtop p h) hp
  · intro p q hpq
    rw [hparent p] at hpq
    exact absurd hpq (by simp)
  · intro p _ hgp
    by_contra h
    exact hgp (hgtop p h)

theorem aStar_frontier {cols rows : Nat} {s e : Pos} {W : Pos → Bool}
    {st : Grid} {openL closed visited : List Pos}
    (inv : AInv cols rows s e W st openL closed visited)
    (_hs : s ∈ allPositions cols rows) :
    ∀ (l : List Pos) (z : Pos), WalkOk cols rows W s l z → z ∉ closed →
      ∃ p ∈ openL,
        (st p).fScore ≤ ((l.length + manhattanDistance z e : Nat) : ℕ∞) := by
  intro l
  induction l using List.reverseRecOn with
  | nil =>
    intro z hw hz
    have hzs : s = z := hw
    subst hzs
    have hsO : s ∈ openL := by
      rcases inv.hdisc s (by rw [inv.hs0]; simp) with h | h
      · exact h
      · exact absurd h hz
    rcases inv.hOmeta s hsO with ⟨_, hf, _⟩
    refine ⟨s, hsO, ?_⟩
    rw [hf, inv.hs0, zero_add]
    simp
  | append_singleton l' q ih =>
    intro z hw hz
    rcases walkOk_snoc.mp hw with ⟨y, hy, hadj, h1, h2, hwall, rfl⟩
    by_cases hyc : y ∈ closed
    · rcases inv.hsettledC y hyc with ⟨m, hgy, hmin⟩
      have hmle : m ≤ l'.length := hmin.2 l'.length ⟨l', hy, rfl⟩
      have hybounds := mem_allPositions.mp (inv.hC_sub y hyc)
      have hqnb : q ∈ getNeighbors cols rows st y :=
        (mem_getNeighbors hybounds.1 hybounds.2).mpr
          ⟨hadj, h1, h2, by rw [inv.hwalls]; exact hwall⟩
      have hcl := inv.hclosureC y hyc q hqnb
      rw [hgy, enat_coe_succ] at hcl
      obtain ⟨k, hgq, hkle⟩ := enat_le_coe hcl
      have hqO : q ∈ openL := by
        rcases inv.hdisc q (by rw [hgq]; exact enat_ne_top k) with h | h
        · exact h
        · exact absurd h hz
      rcases inv.hOmeta q hqO with ⟨_, hf, _⟩
      refine ⟨q, hqO, ?_⟩
      rw [hf, hgq]
      have harith : k + manhattanDistance q e ≤
          (l' ++ [q]).length + manhattanDistance q e := by
        simp only [List.length_append, List.length_cons, List.length_nil]
        omega
      calc ((k : ℕ∞)) + (manhattanDistance q e : ℕ∞)
          = ((k + manhattanDistance q e : Nat) : ℕ∞) := by push_cast; ring
        _ ≤ _ := by exact_mod_cast harith
    · rcases ih y hy hyc with ⟨p, hp, hb⟩
      refine ⟨p, hp, hb.trans ?_⟩
      have hcons := adjacent_manhattan_le e hadj
      have : l'.length + manhattanDistance y e ≤
          (l' ++ [q]).length + manhattanDistance q e := by
        simp only [List.length_append, List.length_cons, List.length_nil]
        omega
      exact_mod_cast this

theorem aStar_settle {cols rows : Nat} {s e : Pos} {W : Pos → Bool}
    {st : Grid} {openL closed visited rest : List Pos} {current : Pos}
    (inv : AInv cols rows s e W st openL closed visited)
    (hs : s ∈ allPositions cols rows)
    (hsort : sortByFScore st openL = current :: rest) :
    ∃ n : ℕ, (st current).gScore = (n : ℕ∞) ∧ MinReach cols rows W s n current := by
  obtain ⟨hperm, hcurO, hmin⟩ := sortByFScore_cons hsort
  rcases inv.hOmeta current hcurO with ⟨_, hf, hgfin⟩
  obtain ⟨n, hg⟩ : ∃ n : ℕ, (st current).gScore = (n : ℕ∞) := by
    cases hc : (st current).gScore with
    | top => exact absurd hc hgfin
    | coe n => exact ⟨n, rfl⟩
  have hreach : Reaches cols rows W s n current := inv.hsound current n hg
  obtain ⟨lw, hlw, hlen⟩ := hreach
  obtain ⟨k, hk⟩ := exists_minReach ⟨lw, hlw⟩
  obtain ⟨lk, hlk, hlklen⟩ := hk.1
  have hnotc : current ∉ closed := inv.hOC_disj current hcurO
  obtain ⟨p, hpO, hpb⟩ := aStar_frontier inv hs lk current hlk hnotc
  have h1 : (st current).fScore ≤ ((k + manhattanDistance current e : Nat) : ℕ∞) := by
    refine le_trans (hmin p hpO) ?_
    rw [hlklen] at hpb
    exact hpb
  rw [hf, hg] at h1
  have h1' : ((n + manhattanDistance current e : Nat) : ℕ∞) ≤
      ((k + manhattanDistance current e : Nat) : ℕ∞) := by
    calc ((n + manhattanDistance current e : Nat) : ℕ∞)
        = ((n : ℕ∞)) + (manhattanDistance current e : ℕ∞) := by push_cast; ring
      _ ≤ _ := h1
  have hnk : n ≤ k := by
    have := (Nat.cast_le (α := ℕ∞)).mp h1'
    omega
  have hkn : k ≤ n := hk.2 n ⟨lw, hlw, hlen⟩
  have hnkeq : n = k := le_antisymm hnk hkn
  exact ⟨n, hg, by rw [hnkeq]; exact hk⟩

theorem aStar_eBound {cols rows : Nat} {s e : Pos} {W : Pos → Bool}
    {st : Grid} {openL closed visited rest : List Pos} {current : Pos}
    (inv : AInv cols rows s e W st openL closed visited)
    (hs : s ∈ allPositions cols rows)
    (hsort : sortByFScore st openL = current :: rest) (hne : current ≠ e) :
    ∀ k : ℕ, MinReach cols rows W s k e →
      ∃ j : ℕ, MinReach cols rows W s j current ∧ j < k := by
  intro k hk
  obtain ⟨hperm, hcurO, hmin⟩ := sortByFScore_cons hsort
  obtain ⟨n, hg, hminc⟩ := aStar_settle inv hs hsort
  refine ⟨n, hminc, ?_⟩
  obtain ⟨lk, hlk, hlklen⟩ := hk.1
  obtain ⟨p, hpO, hpb⟩ := aStar_frontier inv hs lk e hlk inv.hE_notC
  rw [hlklen, manhattanDistance_self, Nat.add_zero] at hpb
  rcases inv.hOmeta current hcurO with ⟨_, hf, _⟩
  have h1 : (st current).fScore ≤ ((k : Nat) : ℕ∞) := le_trans (hmin p hpO) hpb
  rw [hf, hg] at h1
  have h1' : ((n + manhattanDistance current e : Nat) : ℕ∞) ≤ ((k : Nat) : ℕ∞) := by
    calc ((n + manhattanDistance current e : Nat) : ℕ∞)
        = ((n : ℕ∞)) + (manhattanDistance current e : ℕ∞) := by push_cast; ring
      _ ≤ _ := h1
  have hle : n + manhattanDistance current e ≤ k := (Nat.cast_le (α := ℕ∞)).mp h1'
  have hpos : manhattanDistance current e ≠ 0 := fun h0 =>
    hne (manhattanDistance_eq_zero h0)
  omega

/-! ### A*: one relaxation step preserves the fold invariant -/

theorem aStarRelax_H_update {cols rows : Nat} {s e current : Pos} {W : Pos → Bool}
    {n : Nat} {closed2 : List Pos} {st : Grid} {openL : List Pos} {nbr : Pos}
    (H : ARelaxH cols rows s e current W n closed2 st openL)
    (hadj : adjacent current nbr) (h1 : nbr.1 < cols) (h2 : nbr.2 < rows)
    (hw : W nbr = false) (hne : nbr ≠ current)
    (hlt : (st current).gScore + 1 < (st nbr).gScore ∨ (st nbr).gScore = ⊤)
    (hnc : nbr ∉ closed2)
    {newO : List Pos} (hmemO : ∀ q, q ∈ newO ↔ q ∈ openL ∨ q = nbr)
    (hnodup : newO.Nodup) :
    ARelaxH cols rows s e current W n closed2
      (updateCell st nbr
        { st nbr with parent := some current, gScore := (st current).gScore + 1,
                      hScore := (manhattanDistance nbr e : ℕ∞),
                      fScore := (st current).gScore + 1 + (manhattanDistance nbr e : ℕ∞) })
      newO := by
  have hne' : current ≠ nbr := fun h => hne h.symm
  set newcell : GridNode :=
    { st nbr with parent := some current, gScore := (st current).gScore + 1,
                  hScore := (manhattanDistance nbr e : ℕ∞),
                  fScore := (st current).gScore + 1 + (manhattanDistance nbr e : ℕ∞) }
    with hnewcell
  set st1 := updateCell st nbr newcell with hst1
  have hupd_same : st1 nbr = newcell := updateCell_same _ _ _
  have hupd_ne : ∀ q, q ≠ nbr → st1 q = st q := fun q hq => updateCell_ne _ _ _ hq
  have hcur1 : st1 current = st current := hupd_ne current hne'
  have ht : (st current).gScore + 1 = ((n + 1 : Nat) : ℕ∞) := by
    rw [H.hcurg, enat_coe_succ]
  have hsnbr : s ≠ nbr := by
    intro h
    rcases hlt with hlt | htop
    · rw [← h, H.hs0] at hlt
      exact (zero_le _).not_lt hlt
    · rw [← h, H.hs0] at htop
      exact absurd htop (by simp)
  have hwalls1 : ∀ q, (st1 q).isWall = W q := by
    intro q
    by_cases hq : q = nbr
    · rw [hq, hupd_same]
      exact H.hwalls nbr
    · rw [hupd_ne q hq]
      exact H.hwalls q
  refine
    { hO_nodup := hnodup
      hOC_disj := ?_
      hO_sub := ?_
      hwalls := hwalls1
      hendflag := ?_
      hOmeta := ?_
      hs0 := by rw [hupd_ne s hsnbr]; exact H.hs0
      hs_parent := by rw [hupd_ne s hsnbr]; exact H.hs_parent
      hsound := ?_
      hsettledC := ?_
      hclosureOld := ?_
      hdisc := ?_
      hchain := ?_
      hnoparent := ?_
      hcurC := H.hcurC
      hcurg := by rw [hcur1]; exact H.hcurg }
  · intro p hp
    rcases (hmemO p).mp hp with h | rfl
    · exact H.hOC_disj p h
    · exact hnc
  · intro p hp
    rcases (hmemO p).mp hp with h | rfl
    · exact H.hO_sub p h
    · exact mem_allPositions.mpr ⟨h1, h2⟩
  · intro q
    by_cases hq : q = nbr
    · rw [hq, hupd_same]
      exact H.hendflag nbr
    · rw [hupd_ne q hq]
      exact H.hendflag q
  · intro p hp
    by_cases hq : p = nbr
    · rw [hq, hupd_same]
      refine ⟨rfl, rfl, ?_⟩
      show (st current).gScore + 1 ≠ ⊤
      rw [ht]
      exact enat_ne_top (n + 1)
    · rcases (hmemO p).mp hp with h | h
      · rw [hupd_ne p hq]
        exact H.hOmeta p h
      · exact absurd h hq
  · intro p m hm
    by_cases hq : p = nbr
    · rw [hq, hupd_same] at hm
      have hm' : (st current).gScore + 1 = ((m : Nat) : ℕ∞) := hm
      rw [ht] at hm'
      have hmn : (n + 1 : Nat) = m := by exact_mod_cast hm'
      rw [← hmn, hq]
      exact reaches_step (H.hsound current n H.hcurg) hadj h1 h2 hw
    · rw [hupd_ne p hq] at hm
      exact H.hsound p m hm
  · intro p hp
    have hq : p ≠ nbr := fun h => hnc (h ▸ hp)
    rcases H.hsettledC p hp with ⟨m, hgm, hminm⟩
    exact ⟨m, by rw [hupd_ne p hq]; exact hgm, hminm⟩
  · intro p hp hpc q hq
    have hpnbr : p ≠ nbr := fun h => hnc (h ▸ hp)
    rw [getNeighbors_congr cols rows p (fun r => (hwalls1 r).trans (H.hwalls r).symm)] at hq
    have hold := H.hclosureOld p hp hpc q hq
    rw [hupd_ne p hpnbr]
    by_cases hqn : q = nbr
    · rw [hqn, hupd_same]
      show (st current).gScore + 1 ≤ (st p).gScore + 1
      rcases hlt with hlt | htop
      · rw [hqn] at hold
        exact le_trans (le_of_lt hlt) hold
      · rw [hqn, htop] at hold
        exact le_trans le_top hold
    · rw [hupd_ne q hqn]
      exact hold
  · intro p hp
    by_cases hq : p = nbr
    · exact Or.inl ((hmemO p).mpr (Or.inr hq))
    · rw [hupd_ne p hq] at hp
      rcases H.hdisc p hp with h | h
      · exact Or.inl ((hmemO p).mpr (Or.inl h))
      · exact Or.inr h
  · intro p q hpq
    by_cases hq : p = nbr
    · rw [hq, hupd_same] at hpq
      have hqcur : q = current := by
        have h' : some current = some q := hpq
        exact (Option.some_injective _ h').symm
      refine ⟨?_, ?_, ?_, ?_, n, ?_, ?_⟩
      · rw [hqcur]; exact H.hcurC
      · rw [hqcur, hq]; exact hadj
      · rw [hq]; exact mem_allPositions.mpr ⟨h1, h2⟩
      · rw [hq]; exact hw
      · rw [hqcur, hcur1]; exact H.hcurg
      · rw [hq, hupd_same]
        show (st current).gScore + 1 = ((n + 1 : Nat) : ℕ∞)
        exact ht
    · rw [hupd_ne p hq] at hpq
      rcases H.hchain p q hpq with ⟨hqC, hadj', hmem', hw', m, hgq, hgp⟩
      have hqnbr : q ≠ nbr := fun h => hnc (h ▸ hqC)
      exact ⟨hqC, hadj', hmem', hw', m, by rw [hupd_ne q hqnbr]; exact hgq,
        by rw [hupd_ne p hq]; exact hgp⟩
  · intro p hpar hgp
    by_cases hq : p = nbr
    · rw [hq, hupd_same] at hpar
      exact absurd hpar (by simp)
    · rw [hupd_ne p hq] at hpar hgp
      exact H.hnoparent p hpar hgp

theorem aStarRelax_step {cols rows : Nat} {s e current : Pos} {W : Pos → Bool}
    {n : Nat} {closed2 : List Pos} {st : Grid} {openL : List Pos} {nbr : Pos}
    (H : ARelaxH cols rows s e current W n closed2 st openL)
    (hadj : adjacent current nbr) (h1 : nbr.1 < cols) (h2 : nbr.2 < rows)
    (hw : W nbr = false) (hne : nbr ≠ current) :
    ARelaxH cols rows s e current W n closed2
      (aStarRelax current e closed2 (st, openL) nbr).1
      (aStarRelax current e closed2 (st, openL) nbr).2 ∧
    ((aStarRelax current e closed2 (st, openL) nbr).1 nbr).gScore ≤ ((n + 1 : Nat) : ℕ∞) ∧
    (aStarRelax current e closed2 (st, openL) nbr).1 current = st current ∧
    (∀ q, ((aStarRelax current e closed2 (st, openL) nbr).1 q).gScore ≤ (st q).gScore) ∧
    (∀ q ∈ openL, q ∈ (aStarRelax current e closed2 (st, openL) nbr).2) := by
  have hne' : current ≠ nbr := fun h => hne h.symm
  have ht : (st current).gScore + 1 = ((n + 1 : Nat) : ℕ∞) := by
    rw [H.hcurg, enat_coe_succ]
  by_cases hc : nbr ∈ closed2
  · have hred : aStarRelax current e closed2 (st, openL) nbr = (st, openL) := by
      simp [aStarRelax, hc]
    rw [hred]
    refine ⟨H, ?_, rfl, fun q => le_refl _, fun q hq => hq⟩
    -- bound for a closed neighbor: both endpoints are settled
    rcases H.hsettledC nbr hc with ⟨m, hgm, hminm⟩
    rcases H.hsettledC current H.hcurC with ⟨m', hgm', hminm'⟩
    have hm'n : m' = n := by
      rw [H.hcurg] at hgm'
      exact_mod_cast hgm'.symm
    have hreach : Reaches cols rows W s (n + 1) nbr :=
      reaches_step (by rw [← hm'n]; exact hminm'.1) hadj h1 h2 hw
    have hmle : m ≤ n + 1 := hminm.2 (n + 1) hreach
    rw [hgm]
    exact_mod_cast hmle
  · by_cases ho : nbr ∈ openL
    · by_cases hlt : (st current).gScore + 1 < (st nbr).gScore
      · have hred : aStarRelax current e closed2 (st, openL) nbr =
            (updateCell st nbr
              { st nbr with parent := some current, gScore := (st current).gScore + 1,
                            hScore := (manhattanDistance nbr e : ℕ∞),
                            fScore := (st current).gScore + 1 +
                              (manhattanDistance nbr e : ℕ∞) }, openL) := by
          simp [aStarRelax, hc, ho, hlt]
        rw [hred]
        dsimp only
        refine ⟨aStarRelax_H_update H hadj h1 h2 hw hne (Or.inl hlt) hc
          (fun q => ⟨fun hq => Or.inl hq, fun hq => by
            rcases hq with hq | rfl
            · exact hq
            · exact ho⟩) H.hO_nodup, ?_, ?_, ?_, fun q hq => hq⟩
        · rw [updateCell_same]
          show (st current).gScore + 1 ≤ ((n + 1 : Nat) : ℕ∞)
          rw [ht]
        · exact updateCell_ne _ _ _ hne'
        · intro q
          by_cases hq : q = nbr
          · rw [hq, updateCell_same]
            show (st current).gScore + 1 ≤ (st nbr).gScore
            exact le_of_lt hlt
          · rw [updateCell_ne _ _ _ hq]
      · have hred : aStarRelax current e closed2 (st, openL) nbr = (st, openL) := by
          simp [aStarRelax, hc, ho, hlt]
        rw [hred]
        refine ⟨H, ?_, rfl, fun q => le_refl _, fun q hq => hq⟩
        rw [← ht]
        exact le_of_not_lt hlt
    · have hgtop : (st nbr).gScore = ⊤ := by
        by_contra hfin
        rcases H.hdisc nbr hfin with h | h
        · exact ho h
        · exact hc h
      have hred : aStarRelax current e closed2 (st, openL) nbr =
          (updateCell st nbr
            { st nbr with parent := some current, gScore := (st current).gScore + 1,
                          hScore := (manhattanDistance nbr e : ℕ∞),
                          fScore := (st current).gScore + 1 +
                            (manhattanDistance nbr e : ℕ∞) }, openL ++ [nbr]) := by
        simp [aStarRelax, hc, ho]
      rw [hred]
      dsimp only
      refine ⟨aStarRelax_H_update H hadj h1 h2 hw hne (Or.inr hgtop) hc
        (fun q => by
          constructor
          · intro hq
            rcases List.mem_append.mp hq with hq | hq
            · exact Or.inl hq
            · exact Or.inr (List.mem_singleton.mp hq)
          · intro hq
            rcases hq with hq | rfl
            · exact List.mem_append.mpr (Or.inl hq)
            · exact List.mem_append.mpr (Or.inr (List.mem_singleton.mpr rfl)))
        ?_, ?_, ?_, ?_, ?_⟩
      · rw [List.nodup_append]
        exact ⟨H.hO_nodup, List.nodup_singleton _,
          fun a ha hb => by
            rcases List.mem_singleton.mp hb with rfl
            exact ho ha⟩
      · rw [updateCell_same]
        show (st current).gScore + 1 ≤ ((n + 1 : Nat) : ℕ∞)
        rw [ht]
      · exact updateCell_ne _ _ _ hne'
      · intro q
        by_cases hq : q = nbr
        · rw [hq, updateCell_same, hgtop]
          exact le_top
        · rw [updateCell_ne _ _ _ hq]
      · intro q hq
        exact List.mem_append.mpr (Or.inl hq)

/-! ### A*: the relaxation fold -/

theorem aStarRelax_fold {cols rows : Nat} {s e current : Pos} {W : Pos → Bool}
    {n : Nat} {closed2 : List Pos} :
    ∀ (ns : List Pos) (st : Grid) (openL : List Pos),
      ARelaxH cols rows s e current W n closed2 st openL →
      (∀ q ∈ ns, adjacent current q ∧ q.1 < cols ∧ q.2 < rows ∧ W q = false ∧
        q ≠ current) →
      ARelaxH cols rows s e current W n closed2
        (ns.foldl (aStarRelax current e closed2) (st, openL)).1
        (ns.foldl (aStarRelax current e closed2) (st, openL)).2 ∧
      (∀ q ∈ ns,
        ((ns.foldl (aStarRelax current e closed2) (st, openL)).1 q).gScore ≤
          ((n + 1 : Nat) : ℕ∞)) ∧
      (ns.foldl (aStarRelax current e closed2) (st, openL)).1 current = st current ∧
      (∀ q, ((ns.foldl (aStarRelax current e closed2) (st, openL)).1 q).gScore ≤
        (st q).gScore) ∧
      (∀ q ∈ openL, q ∈ (ns.foldl (aStarRelax current e closed2) (st, openL)).2)
  | [], st, openL, H, _ =>
    ⟨H, fun q hq => absurd hq (List.not_mem_nil q), rfl, fun q => le_refl _,
      fun q hq => hq⟩
  | nbr :: ns', st, openL, H, hns => by
    rcases hns nbr (List.mem_cons_self _ _) with ⟨hadj, h1, h2, hw, hne⟩
    obtain ⟨H1, hb1, hcur1, hdec1, hsub1⟩ := aStarRelax_step H hadj h1 h2 hw hne
    have hstep : (nbr :: ns').foldl (aStarRelax current e closed2) (st, openL) =
        ns'.foldl (aStarRelax current e closed2)
          ((aStarRelax current e closed2 (st, openL) nbr).1,
           (aStarRelax current e closed2 (st, openL) nbr).2) := rfl
    obtain ⟨H2, hb2, hcur2, hdec2, hsub2⟩ :=
      aStarRelax_fold ns' (aStarRelax current e closed2 (st, openL) nbr).1
        (aStarRelax current e closed2 (st, openL) nbr).2 H1
        (fun q hq => hns q (List.mem_cons_of_mem _ hq))
    rw [hstep]
    refine ⟨H2, ?_, by rw [hcur2, hcur1], fun q => le_trans (hdec2 q) (hdec1 q),
      fun q hq => hsub2 q (hsub1 q hq)⟩
    intro q hq
    rcases List.mem_cons.mp hq with rfl | hq'
    · exact le_trans (hdec2 q) hb1
    · exact hb2 q hq'

/-! ### A*: invariant preservation across one loop iteration -/

theorem aStar_step_inv {cols rows : Nat} {s e : Pos} {W : Pos → Bool}
    {st : Grid} {openL closed visited rest : List Pos} {current : Pos}
    (inv : AInv cols rows s e W st openL closed visited)
    (hs : s ∈ allPositions cols rows)
    (hsort : sortByFScore st openL = current :: rest)
    (hnotend : (st current).isEnd = false) :
    AInv cols rows s e W
      ((getNeighbors cols rows st current).foldl
        (aStarRelax current e (current :: closed)) (st, rest)).1
      ((getNeighbors cols rows st current).foldl
        (aStarRelax current e (current :: closed)) (st, rest)).2
      (current :: closed) (visited ++ [current]) := by
  obtain ⟨hperm, hcurO, hmin⟩ := sortByFScore_cons hsort
  have hOnodup2 : (current :: rest).Nodup := hperm.nodup inv.hO_nodup
  have hcur_notin_rest : current ∉ rest := (List.nodup_cons.mp hOnodup2).1
  have hrest_nodup : rest.Nodup := (List.nodup_cons.mp hOnodup2).2
  have hrest_sub_O : ∀ p ∈ rest, p ∈ openL := fun p hp =>
    hperm.mem_iff.mpr (List.mem_cons_of_mem _ hp)
  have hcur_mem_all : current ∈ allPositions cols rows := inv.hO_sub current hcurO
  have hcur_bounds := mem_allPositions.mp hcur_mem_all
  have hcur_notC : current ∉ closed := inv.hOC_disj current hcurO
  have hcur_ne_e : current ≠ e := by
    intro h
    rw [(inv.hendflag current).mpr h] at hnotend
    exact Bool.true_eq_false.mp hnotend
  obtain ⟨n, hg, hmincur⟩ := aStar_settle inv hs hsort
  have hcur_notvis : current ∉ visited := fun h => hcur_notC ((inv.hvisC current).mp h)
  -- the fold invariant holds at the start of the neighbor loop
  have H0 : ARelaxH cols rows s e current W n (current :: closed) st rest :=
    { hO_nodup := hrest_nodup
      hOC_disj := fun p hp => by
        intro hmem
        rcases List.mem_cons.mp hmem with rfl | hmem'
        · exact hcur_notin_rest hp
        · exact inv.hOC_disj p (hrest_sub_O p hp) hmem'
      hO_sub := fun p hp => inv.hO_sub p (hrest_sub_O p hp)
      hwalls := inv.hwalls
      hendflag := inv.hendflag
      hOmeta := fun p hp => inv.hOmeta p (hrest_sub_O p hp)
      hs0 := inv.hs0
      hs_parent := inv.hs_parent
      hsound := inv.hsound
      hsettledC := fun p hp => by
        rcases List.mem_cons.mp hp with rfl | hp'
        · exact ⟨n, hg, hmincur⟩
        · exact inv.hsettledC p hp'
      hclosureOld := fun p hp hpc q hq => by
        rcases List.mem_cons.mp hp with rfl | hp'
        · exact absurd rfl hpc
        · exact inv.hclosureC p hp' q hq
      hdisc := fun p hp => by
        rcases inv.hdisc p hp with h | h
        · rcases List.mem_cons.mp (hperm.mem_iff.mp h) with rfl | h'
          · exact Or.inr (List.mem_cons_self _ _)
          · exact Or.inl h'
        · exact Or.inr (List.mem_cons_of_mem _ h)
      hchain := fun p q hpq => by
        rcases inv.hchain p q hpq with ⟨hqC, h2, h3, h4, h5⟩
        exact ⟨List.mem_cons_of_mem _ hqC, h2, h3, h4, h5⟩
      hnoparent := inv.hnoparent
      hcurC := List.mem_cons_self _ _
      hcurg := hg }
  have hns : ∀ q ∈ getNeighbors cols rows st current,
      adjacent current q ∧ q.1 < cols ∧ q.2 < rows ∧ W q = false ∧ q ≠ current := by
    intro q hq
    rcases (mem_getNeighbors hcur_bounds.1 hcur_bounds.2).mp hq with ⟨ha, h1, h2, hw⟩
    refine ⟨ha, h1, h2, by rw [← inv.hwalls]; exact hw, ?_⟩
    intro h
    rw [h] at hq
    exact self_not_mem_getNeighbors cols rows st current hq
  obtain ⟨H', hbound, hcurfix, hdec, hOsub⟩ :=
    aStarRelax_fold (getNeighbors cols rows st current) st rest H0 hns
  have hwalls' : ∀ q, (((getNeighbors cols rows st current).foldl
      (aStarRelax current e (current :: closed)) (st, rest)).1 q).isWall =
      (st q).isWall := fun q => (H'.hwalls q).trans (inv.hwalls q).symm
  refine
    { hO_nodup := H'.hO_nodup
      hC_nodup := List.nodup_cons.mpr ⟨hcur_notC, inv.hC_nodup⟩
      hOC_disj := H'.hOC_disj
      hO_sub := H'.hO_sub
      hC_sub := fun p hp => by
        rcases List.mem_cons.mp hp with rfl | hp'
        · exact hcur_mem_all
        · exact inv.hC_sub p hp'
      hwalls := H'.hwalls
      hendflag := H'.hendflag
      hOmeta := H'.hOmeta
      hs0 := H'.hs0
      hs_parent := H'.hs_parent
      hsound := H'.hsound
      hsettledC := H'.hsettledC
      hclosureC := ?_
      hdisc := H'.hdisc
      hE_notC := ?_
      hchain := H'.hchain
      hnoparent := H'.hnoparent
      hvisC := ?_
      hvis_nodup := ?_
      hvisBound := ?_ }
  · intro p hp q hq
    have hqst := hq
    rw [getNeighbors_congr cols rows p hwalls'] at hqst
    rcases List.mem_cons.mp hp with h | hp'
    · rw [h] at hqst ⊢
      rw [hcurfix, hg, enat_coe_succ]
      exact hbound q hqst
    · exact H'.hclosureOld p (List.mem_cons_of_mem _ hp')
        (fun hh => hcur_notC (hh ▸ hp')) q hq
  · intro h
    rcases List.mem_cons.mp h with h' | h'
    · exact hcur_ne_e h'.symm
    · exact inv.hE_notC h'
  · intro p
    constructor
    · intro hp
      rcases List.mem_append.mp hp with h | h
      · exact List.mem_cons_of_mem _ ((inv.hvisC p).mp h)
      · rcases List.mem_singleton.mp h with rfl
        exact List.mem_cons_self _ _
    · intro hp
      rcases List.mem_cons.mp hp with rfl | h
      · exact List.mem_append.mpr (Or.inr (List.mem_singleton.mpr rfl))
      · exact List.mem_append.mpr (Or.inl ((inv.hvisC p).mpr h))
  · rw [List.nodup_append]
    exact ⟨inv.hvis_nodup, List.nodup_singleton _,
      fun a ha hb => by
        rcases List.mem_singleton.mp hb with rfl
        exact hcur_notvis ha⟩
  · intro p hp k hk
    rcases List.mem_append.mp hp with h | h
    · exact inv.hvisBound p h k hk
    · rcases List.mem_singleton.mp h with rfl
      exact aStar_eBound inv hs hsort hcur_ne_e k hk

/-! ### A*: master loop theorem -/

theorem aStarLoop_spec (cols rows : Nat) (s e : Pos) (W : Pos → Bool)
    (hs : s ∈ allPositions cols rows) :
    ∀ (fuel : Nat) (st : Grid) (openL closed visited : List Pos),
      (allPositions cols rows).length + 1 ≤ fuel + closed.length →
      AInv cols rows s e W st openL closed visited →
      (aStarLoop cols rows e fuel st openL closed visited ≠ .missingEndpoints ∧
        aStarLoop cols rows e fuel st openL closed visited ≠ .fuelExceeded) ∧
      (∀ rv, aStarLoop cols rows e fuel st openL closed visited = .noPath rv →
        (∀ l, ¬WalkOk cols rows W s l e) ∧ rv.Nodup ∧
        (∀ u ∈ rv, (∃ j : ℕ, Reaches cols rows W s j u) ∧ u ≠ e)) ∧
      (∀ rvis rpath rframes,
        aStarLoop cols rows e fuel st openL closed visited = .success rvis rpath rframes →
        rvis.Nodup ∧
        (∀ u ∈ rvis, (∃ j : ℕ, Reaches cols rows W s j u) ∧ u ≠ e) ∧
        (∀ k : ℕ, MinReach cols rows W s k e →
          ∀ u ∈ rvis, ∃ j : ℕ, MinReach cols rows W s j u ∧ j < k) ∧
        ∃ n : ℕ, MinReach cols rows W s n e ∧ rpath.length = n + 1 ∧
          rpath.head? = some s ∧ rpath.getLast? = some e ∧ List.Chain' adjacent rpath)
  | 0, st, openL, closed, visited, hfuel, inv => by
    have hsub : closed.Subperm (allPositions cols rows) :=
      List.subperm_of_subset inv.hC_nodup (fun p hp => inv.hC_sub p hp)
    have hlen : closed.length ≤ (allPositions cols rows).length := hsub.length_le
    omega
  | fuel + 1, st, openL, closed, visited, hfuel, inv => by
    have hvis_facts : ∀ u ∈ visited, (∃ j : ℕ, Reaches cols rows W s j u) ∧ u ≠ e := by
      intro u hu
      have huC : u ∈ closed := (inv.hvisC u).mp hu
      rcases inv.hsettledC u huC with ⟨m, _, hminm⟩
      exact ⟨⟨m, hminm.1⟩, fun h => inv.hE_notC (h ▸ huC)⟩
    cases hsort : sortByFScore st openL with
    | nil =>
      have hO : openL = [] := sortByFScore_nil hsort
      have hout : aStarLoop cols rows e (fuel + 1) st openL closed visited =
          .noPath visited := by
        simp [aStarLoop, hsort]
      rw [hout]
      refine ⟨⟨by simp, by simp⟩, ?_, ?_⟩
      · intro rv hrv
        have hrveq : visited = rv := by injection hrv
        subst hrveq
        refine ⟨?_, inv.hvis_nodup, hvis_facts⟩
        intro l hl
        obtain ⟨p, hpO, _⟩ := aStar_frontier inv hs l e hl inv.hE_notC
        rw [hO] at hpO
        exact List.not_mem_nil p hpO
      · intro rvis rpath rframes h
        simp at h
    | cons current rest =>
      obtain ⟨hperm, hcurO, hmin⟩ := sortByFScore_cons hsort
      by_cases hend : (st current).isEnd = true
      · have hcur_e : current = e := (inv.hendflag current).mp hend
        obtain ⟨n, hg, hmincur⟩ := aStar_settle inv hs hsort
        have hpath := reconstructPath_spec
          (fun p q h => ⟨(inv.hchain p q h).2.1, (inv.hchain p q h).2.2.2.2⟩)
          inv.hnoparent inv.hs0 n n current hg (le_refl n)
        have hout : aStarLoop cols rows e (fuel + 1) st openL closed visited =
            .success visited (reconstructPath st n current)
              (animateAlgorithm st visited (reconstructPath st n current)) := by
          simp [aStarLoop, hsort, hend, hg, ENat.toNat_coe]
        rw [hout]
        refine ⟨⟨by simp, by simp⟩, ?_, ?_⟩
        · intro rv hrv
          simp at hrv
        · intro rvis rpath rframes h
          injection h with e1 e2 e3
          subst e1
          subst e2
          refine ⟨inv.hvis_nodup, hvis_facts, ?_, n, hcur_e ▸ hmincur, hpath.1,
            hpath.2.1, hcur_e ▸ hpath.2.2.1, hpath.2.2.2⟩
          intro k hk u hu
          exact inv.hvisBound u hu k hk
      · have hnotend : (st current).isEnd = false := by
          cases hcend : (st current).isEnd
          · rfl
          · exact absurd hcend hend
        have inv2 := aStar_step_inv inv hs hsort hnotend
        have hfuel2 : (allPositions cols rows).length + 1 ≤
            fuel + (current :: closed).length := by
          simp only [List.length_cons]
          omega
        have hout : aStarLoop cols rows e (fuel + 1) st openL closed visited =
            aStarLoop cols rows e fuel
              ((getNeighbors cols rows st current).foldl
                (aStarRelax current e (current :: closed)) (st, rest)).1
              ((getNeighbors cols rows st current).foldl
                (aStarRelax current e (current :: closed)) (st, rest)).2
              (current :: closed) (visited ++ [current]) := by
          simp [aStarLoop, hsort, hnotend]
        rw [hout]
        exact aStarLoop_spec cols rows s e W hs fuel _ _ (current :: closed)
          (visited ++ [current]) hfuel2 inv2

/-! ### Animation sequencer -/

theorem markVisited_other (g : Grid) (p : Pos) {q : Pos} (h : q ≠ p) :
    markVisited g p q = g q := by
  unfold markVisited
  split
  · exact updateCell_ne _ _ _ h
  · rfl

theorem markPath_other (g : Grid) (p : Pos) {q : Pos} (h : q ≠ p) :
    markPath g p q = g q := by
  unfold markPath
  split
  · exact updateCell_ne _ _ _ h
  · rfl

theorem markVisited_flags (g : Grid) (p q : Pos) :
    (markVisited g p q).isStart = (g q).isStart ∧
    (markVisited g p q).isEnd = (g q).isEnd ∧
    (markVisited g p q).isPath = (g q).isPath := by
  unfold markVisited
  split
  · by_cases hq : q = p
    · rw [hq, updateCell_same]
      exact ⟨rfl, rfl, rfl⟩
    · rw [updateCell_ne _ _ _ hq]
      exact ⟨rfl, rfl, rfl⟩
  · exact ⟨rfl, rfl, rfl⟩

theorem markPath_flags (g : Grid) (p q : Pos) :
    (markPath g p q).isStart = (g q).isStart ∧
    (markPath g p q).isEnd = (g q).isEnd ∧
    (markPath g p q).isVisited = (g q).isVisited := by
  unfold markPath
  split
  · by_cases hq : q = p
    · rw [hq, updateCell_same]
      exact ⟨rfl, rfl, rfl⟩
    · rw [updateCell_ne _ _ _ hq]
      exact ⟨rfl, rfl, rfl⟩
  · exact ⟨rfl, rfl, rfl⟩

theorem markVisited_skip (g : Grid) (p : Pos)
    (h : (g p).isStart = true ∨ (g p).isEnd = true) : markVisited g p = g := by
  unfold markVisited
  rcases h with h | h <;> simp [h]

theorem markPath_skip (g : Grid) (p : Pos)
    (h : (g p).isStart = true ∨ (g p).isEnd = true) : markPath g p = g := by
  unfold markPath
  rcases h with h | h <;> simp [h]

theorem animFrames_length (f : Grid → Pos → Grid) :
    ∀ (l : List Pos) (g : Grid), (animFrames f g l).length = l.length
  | [], _ => rfl
  | p :: ps, g => by
    simp only [animFrames, List.length_cons]
    rw [animFrames_length f ps]

theorem animFrames_pres (f : Grid → Pos → Grid) (Φ : Grid → Prop)
    (hf : ∀ g p, Φ g → Φ (f g p)) :
    ∀ (l : List Pos) (g : Grid), Φ g → ∀ fr ∈ animFrames f g l, Φ fr
  | [], _, _, fr, hfr => absurd hfr (List.not_mem_nil fr)
  | p :: ps, g, hg, fr, hfr => by
    rcases List.mem_cons.mp hfr with rfl | hfr'
    · exact hf g p hg
    · exact animFrames_pres f Φ hf ps (f g p) (hf g p hg) fr hfr'

theorem foldl_pres (f : Grid → Pos → Grid) (Φ : Grid → Prop)
    (hf : ∀ g p, Φ g → Φ (f g p)) :
    ∀ (l : List Pos) (g : Grid), Φ g → Φ (l.foldl f g)
  | [], _, hg => hg
  | p :: ps, g, hg => foldl_pres f Φ hf ps (f g p) (hf g p hg)

theorem animFrames_locality (f : Grid → Pos → Grid)
    (hf : ∀ g p q, q ≠ p → f g p q = g q) (d : Pos) (d0 : Grid) :
    ∀ (l : List Pos) (g : Grid) (i : Nat), i < l.length → ∀ q, q ≠ l.getD i d →
      ((animFrames f g l).getD i d0) q = (((g :: animFrames f g l).getD i d0) q)
  | [], _, i, hi, _, _ => absurd hi (by simp)
  | p :: ps, g, 0, _, q, hq => by
    simp only [animFrames, List.getD] at hq ⊢
    exact hf g p q (by simpa using hq)
  | p :: ps, g, i + 1, hi, q, hq => by
    simp only [animFrames, List.length_cons] at hi
    have hrec := animFrames_locality f hf d d0 ps (f g p) i (by omega) q
      (by simpa using hq)
    simp only [animFrames]
    simpa using hrec

theorem animFrames_last (f : Grid → Pos → Grid) (d0 : Grid) :
    ∀ (l : List Pos) (g : Grid),
      ((g :: animFrames f g l).getD l.length d0) = l.foldl f g
  | [], g => rfl
  | p :: ps, g => by
    simp only [animFrames, List.length_cons, List.foldl]
    exact animFrames_last f d0 ps (f g p)

/-- Claim C8 supporting fact: the static cell flags never change during the
animation, and a cell flagged start or end in the input grid never gets its
`isVisited`/`isPath` flags raised. -/
theorem animate_clean (g0 : Grid)
    (hclean : ∀ p, (g0 p).isStart = true ∨ (g0 p).isEnd = true →
      (g0 p).isVisited = false ∧ (g0 p).isPath = false) (visited path : List Pos) :
    ∀ fr ∈ animateAlgorithm g0 visited path, ∀ p,
      (g0 p).isStart = true ∨ (g0 p).isEnd = true →
      (fr p).isVisited = false ∧ (fr p).isPath = false := by
  set Φ : Grid → Prop := fun g =>
    (∀ p, (g p).isStart = (g0 p).isStart ∧ (g p).isEnd = (g0 p).isEnd) ∧
    (∀ p, (g0 p).isStart = true ∨ (g0 p).isEnd = true →
      (g p).isVisited = false ∧ (g p).isPath = false) with hΦ
  have hstepV : ∀ g p, Φ g → Φ (markVisited g p) := by
    intro g p hg
    refine ⟨fun q => ⟨((markVisited_flags g p q).1).trans (hg.1 q).1,
      ((markVisited_flags g p q).2.1).trans (hg.1 q).2⟩, ?_⟩
    intro q hq
    by_cases hpq : q = p
    · have hgp : (g p).isStart = true ∨ (g p).isEnd = true := by
        rcases hq with h | h
        · exact Or.inl (by rw [(hg.1 p).1, ← hpq]; exact h)
        · exact Or.inr (by rw [(hg.1 p).2, ← hpq]; exact h)
      rw [markVisited_skip g p hgp]
      exact hg.2 q hq
    · rw [markVisited_other g p hpq]
      exact hg.2 q hq
  have hstepP : ∀ g p, Φ g → Φ (markPath g p) := by
    intro g p hg
    refine ⟨fun q => ⟨((markPath_flags g p q).1).trans (hg.1 q).1,
      ((markPath_flags g p q).2.1).trans (hg.1 q).2⟩, ?_⟩
    intro q hq
    by_cases hpq : q = p
    · have hgp : (g p).isStart = true ∨ (g p).isEnd = true := by
        rcases hq with h | h
        · exact Or.inl (by rw [(hg.1 p).1, ← hpq]; exact h)
        · exact Or.inr (by rw [(hg.1 p).2, ← hpq]; exact h)
      rw [markPath_skip g p hgp]
      exact hg.2 q hq
    · rw [markPath_other g p hpq]
      exact hg.2 q hq
  have hΦ0 : Φ g0 := ⟨fun q => ⟨rfl, rfl⟩, hclean⟩
  intro fr hfr
  rcases List.mem_append.mp hfr with h | h
  · exact (animFrames_pres markVisited Φ hstepV visited g0 hΦ0 fr h).2
  · exact (animFrames_pres markPath Φ hstepP path
      (visited.foldl markVisited g0)
      (foldl_pres markVisited Φ hstepV visited g0 hΦ0) fr h).2

/-! ### Run-level specifications -/

theorem runDijkstra_spec (cols rows : Nat) (s e : Pos) (grid : Grid)
    (hs : s ∈ allPositions cols rows) (he : e ∈ allPositions cols rows)
    (hend : ∀ p, (grid p).isEnd = true ↔ p = e) :
    (runDijkstra cols rows (some s) (some e) grid ≠ .missingEndpoints ∧
      runDijkstra cols rows (some s) (some e) grid ≠ .fuelExceeded) ∧
    (∀ rv, runDijkstra cols rows (some s) (some e) grid = .noPath rv →
      (∀ l, ¬WalkOk cols rows (wallOf grid) s l e) ∧
      (∀ u, ∀ j : ℕ, Reaches cols rows (wallOf grid) s j u → u ∈ rv)) ∧
    (∀ rvis rpath rframes,
      runDijkstra cols rows (some s) (some e) grid = .success rvis rpath rframes →
      ∃ n : ℕ, MinReach cols rows (wallOf grid) s n e ∧ rpath.length = n + 1 ∧
        rpath.head? = some s ∧ rpath.getLast? = some e ∧
        List.Chain' adjacent rpath ∧ rvis.Nodup ∧
        (∀ u, ∀ j : ℕ, MinReach cols rows (wallOf grid) s j u → j < n → u ∈ rvis)) :=
  dijkstraLoop_spec cols rows s e (wallOf grid) hs he
    (allPositions cols rows).length (dijkstraInit grid s) (allPositions cols rows) []
    (le_refl _) (dijkstraInit_inv grid hs hend)

theorem runAStar_spec (cols rows : Nat) (s e : Pos) (grid : Grid)
    (hs : s ∈ allPositions cols rows)
    (hend : ∀ p, (grid p).isEnd = true ↔ p = e) :
    (runAStar cols rows (some s) (some e) grid ≠ .missingEndpoints ∧
      runAStar cols rows (some s) (some e) grid ≠ .fuelExceeded) ∧
    (∀ rv, runAStar cols rows (some s) (some e) grid = .noPath rv →
      (∀ l, ¬WalkOk cols rows (wallOf grid) s l e) ∧ rv.Nodup ∧
      (∀ u ∈ rv, (∃ j : ℕ, Reaches cols rows (wallOf grid) s j u) ∧ u ≠ e)) ∧
    (∀ rvis rpath rframes,
      runAStar cols rows (some s) (some e) grid = .success rvis rpath rframes →
      rvis.Nodup ∧
      (∀ u ∈ rvis, (∃ j : ℕ, Reaches cols rows (wallOf grid) s j u) ∧ u ≠ e) ∧
      (∀ k : ℕ, MinReach cols rows (wallOf grid) s k e →
        ∀ u ∈ rvis, ∃ j : ℕ, MinReach cols rows (wallOf grid) s j u ∧ j < k) ∧
      ∃ n : ℕ, MinReach cols rows (wallOf grid) s n e ∧ rpath.length = n + 1 ∧
        rpath.head? = some s ∧ rpath.getLast? = some e ∧ List.Chain' adjacent rpath) :=
  aStarLoop_spec cols rows s e (wallOf grid) hs
    ((allPositions cols rows).length + 1) (aStarInit grid s e) [s] [] []
    (by simp) (aStarInit_inv grid hs hend)

/-! ### Claim theorems -/

/-- Claim C3: on every iteration of Dijkstra's main loop — that is, for every
working grid `st`, unvisited list `U` and visited list `visited` the loop can
be in — the cell shifted off the sorted unvisited list has minimal `gScore`
among all cells still in the unvisited set, and if that minimal `gScore` is
`⊤` (JavaScript `Infinity`) the loop immediately returns the no-path outcome
instead of processing the cell. -/
theorem claim3_dijkstra_pop_min (cols rows fuel : Nat) (st : Grid)
    (U visited rest : List Pos) (current : Pos)
    (hsort : sortByGScore st U = current :: rest) :
    (∀ u ∈ U, (st current).gScore ≤ (st u).gScore) ∧
    ((st current).gScore = ⊤ →
      dijkstraLoop cols rows (fuel + 1) st U visited = .noPath visited) := by
  obtain ⟨_, _, hmin⟩ := sortByGScore_cons hsort
  refine ⟨hmin, fun htop => ?_⟩
  simp [dijkstraLoop, hsort, htop]

/-- Witness for C3 on a concrete 2×1 grid: the start cell (score 0) is popped
first, ahead of the cell with score `⊤`. -/
theorem claim3_witness :
    (∀ u ∈ allPositions 2 1,
      (dijkstraInit demoGrid (0, 0) (0, 0)).gScore ≤
        (dijkstraInit demoGrid (0, 0) u).gScore) ∧
    ((dijkstraInit demoGrid (0, 0) (0, 0)).gScore = ⊤ →
      dijkstraLoop 2 1 1 (dijkstraInit demoGrid (0, 0)) (allPositions 2 1) [] =
        .noPath []) :=
  claim3_dijkstra_pop_min 2 1 0 (dijkstraInit demoGrid (0, 0))
    (allPositions 2 1) [] [(1, 0)] (0, 0) (by decide)

/-- Claim C4: for every successful run of either algorithm, the returned
path starts at the start cell, ends at the end cell, and consecutive path
cells are 4-adjacent (so it includes both endpoints). -/
theorem claim4_path_endpoints (cols rows : Nat) (s e : Pos) (grid : Grid)
    (hs : s.1 < cols ∧ s.2 < rows) (he : e.1 < cols ∧ e.2 < rows)
    (hend : ∀ p, (grid p).isEnd = true ↔ p = e) :
    (∀ vis path frames,
      runDijkstra cols rows (some s) (some e) grid = .success vis path frames →
      path.head? = some s ∧ path.getLast? = some e ∧ List.Chain' adjacent path) ∧
    (∀ vis path frames,
      runAStar cols rows (some s) (some e) grid = .success vis path frames →
      path.head? = some s ∧ path.getLast? = some e ∧ List.Chain' adjacent path) := by
  have hs' := mem_allPositions.mpr hs
  have he' := mem_allPositions.mpr he
  constructor
  · intro vis path frames h
    obtain ⟨n, _, _, h3, h4, h5, _, _⟩ :=
      (runDijkstra_spec cols rows s e grid hs' he' hend).2.2 vis path frames h
    exact ⟨h3, h4, h5⟩
  · intro vis path frames h
    obtain ⟨_, _, _, n, _, _, h3, h4, h5⟩ :=
      (runAStar_spec cols rows s e grid hs' hend).2.2 vis path frames h
    exact ⟨h3, h4, h5⟩

/-- Witness for C4 on a concrete 2×1 grid. -/
theorem claim4_witness :
    (∀ vis path frames,
      runDijkstra 2 1 (some (0, 0)) (some (1, 0)) demoGrid = .success vis path frames →
      path.head? = some (0, 0) ∧ path.getLast? = some (1, 0) ∧
        List.Chain' adjacent path) ∧
    (∀ vis path frames,
      runAStar 2 1 (some (0, 0)) (some (1, 0)) demoGrid = .success vis path frames →
      path.head? = some (0, 0) ∧ path.getLast? = some (1, 0) ∧
        List.Chain' adjacent path) :=
  claim4_path_endpoints 2 1 (0, 0) (1, 0) demoGrid (by decide) (by decide)
    (fun p => by simp [demoGrid])

/-- Claim C5: for every in-bounds cell, `getNeighbors` returns exactly the
4-adjacent in-bounds non-wall cells (so at most 4 of them), enumerated as a
subsequence of the fixed candidate order up, down, left, right. -/
theorem claim5_neighbors (cols rows : Nat) (st : Grid) (p : Pos)
    (hp : p.1 < cols ∧ p.2 < rows) :
    (∀ q, q ∈ getNeighbors cols rows st p ↔
      adjacent p q ∧ q.1 < cols ∧ q.2 < rows ∧ (st q).isWall = false) ∧
    (getNeighbors cols rows st p).Sublist
      [(p.1, p.2 - 1), (p.1, p.2 + 1), (p.1 - 1, p.2), (p.1 + 1, p.2)] ∧
    (getNeighbors cols rows st p).length ≤ 4 :=
  ⟨fun _ => mem_getNeighbors hp.1 hp.2, getNeighbors_sublist cols rows st p,
    le_trans (getNeighbors_sublist cols rows st p).length_le (by simp)⟩

/-- Witness for C5 at the corner cell `(0, 0)` of a concrete 2×1 grid. -/
theorem claim5_witness :
    (∀ q, q ∈ getNeighbors 2 1 demoGrid (0, 0) ↔
      adjacent (0, 0) q ∧ q.1 < 2 ∧ q.2 < 1 ∧ (demoGrid q).isWall = false) ∧
    (getNeighbors 2 1 demoGrid (0, 0)).Sublist
      [(0, 0 - 1), (0, 0 + 1), (0 - 1, 0), (0 + 1, 0)] ∧
    (getNeighbors 2 1 demoGrid (0, 0)).length ≤ 4 :=
  claim5_neighbors 2 1 demoGrid (0, 0) (by decide)

/-- Claim C6: if the start reference or the end reference is null, both run
entry points fail with the missing-endpoints condition before any search
begins, no animation frame is emitted, and the live grid is left unchanged. -/
theorem claim6_missing_endpoints (cols rows : Nat) (startNode endNode : Option Pos)
    (grid : Grid) (h : startNode = none ∨ endNode = none) :
    runDijkstra cols rows startNode endNode grid = .missingEndpoints ∧
    runAStar cols rows startNode endNode grid = .missingEndpoints ∧
    (runDijkstra cols rows startNode endNode grid).framesList = [] ∧
    (runAStar cols rows startNode endNode grid).framesList = [] ∧
    liveGridAfter (runDijkstra cols rows startNode endNode grid) grid = grid ∧
    liveGridAfter (runAStar cols rows startNode endNode grid) grid = grid := by
  have hD : runDijkstra cols rows startNode endNode grid = .missingEndpoints := by
    rcases h with h | h
    · rw [h]; rfl
    · rw [h]; cases startNode <;> rfl
  have hA : runAStar cols rows startNode endNode grid = .missingEndpoints := by
    rcases h with h | h
    · rw [h]; rfl
    · rw [h]; cases startNode <;> rfl
  exact ⟨hD, hA, by rw [hD]; rfl, by rw [hA]; rfl, by rw [hD]; rfl, by rw [hA]; rfl⟩

/-- Witness for C6 with a null start reference. -/
theorem claim6_witness :
    runDijkstra 2 1 none (some (1, 0)) demoGrid = .missingEndpoints ∧
    runAStar 2 1 none (some (1, 0)) demoGrid = .missingEndpoints ∧
    (runDijkstra 2 1 none (some (1, 0)) demoGrid).framesList = [] ∧
    (runAStar 2 1 none (some (1, 0)) demoGrid).framesList = [] ∧
    liveGridAfter (runDijkstra 2 1 none (some (1, 0)) demoGrid) demoGrid = demoGrid ∧
    liveGridAfter (runAStar 2 1 none (some (1, 0)) demoGrid) demoGrid = demoGrid :=
  claim6_missing_endpoints 2 1 none (some (1, 0)) demoGrid (Or.inl rfl)

/-- Claim C1: for every grid configuration in which no wall fully separates
start from end (some walk from start to end exists), both `runDijkstra` and
`runAStar` succeed; the path Dijkstra returns has length equal to the
Manhattan-grid shortest-path length (its cell count is `moves + 1` for some
walk, and is minimal over all walks), and A* returns a path of the same
length, so the two algorithms agree on path length. -/
theorem claim1_shortest_paths (cols rows : Nat) (s e : Pos) (grid : Grid)
    (hs : s.1 < cols ∧ s.2 < rows) (he : e.1 < cols ∧ e.2 < rows)
    (hend : ∀ p, (grid p).isEnd = true ↔ p = e)
    (hreach : ∃ l, WalkOk cols rows (wallOf grid) s l e) :
    ∃ visd pd fd visa pa fa,
      runDijkstra cols rows (some s) (some e) grid = .success visd pd fd ∧
      runAStar cols rows (some s) (some e) grid = .success visa pa fa ∧
      (∃ l, WalkOk cols rows (wallOf grid) s l e ∧ pd.length = l.length + 1) ∧
      (∀ l, WalkOk cols rows (wallOf grid) s l e → pd.length ≤ l.length + 1) ∧
      pa.length = pd.length := by
  have hs' := mem_allPositions.mpr hs
  have he' := mem_allPositions.mpr he
  have hD := runDijkstra_spec cols rows s e grid hs' he' hend
  have hA := runAStar_spec cols rows s e grid hs' hend
  cases hDout : runDijkstra cols rows (some s) (some e) grid with
  | missingEndpoints => exact absurd hDout hD.1.1
  | fuelExceeded => exact absurd hDout hD.1.2
  | noPath rv =>
    obtain ⟨hno, _⟩ := hD.2.1 rv hDout
    obtain ⟨l, hl⟩ := hreach
    exact absurd hl (hno l)
  | success visd pd fd =>
    obtain ⟨n, hminE, hlend, _, _, _, _, _⟩ := hD.2.2 visd pd fd hDout
    cases hAout : runAStar cols rows (some s) (some e) grid with
    | missingEndpoints => exact absurd hAout hA.1.1
    | fuelExceeded => exact absurd hAout hA.1.2
    | noPath rv =>
      obtain ⟨hno, _, _⟩ := hA.2.1 rv hAout
      obtain ⟨l, hl⟩ := hreach
      exact absurd hl (hno l)
    | success visa pa fa =>
      obtain ⟨_, _, _, m, hminE', hlena, _, _, _⟩ := hA.2.2 visa pa fa hAout
      have hmn : m = n := minReach_unique hminE' hminE
      obtain ⟨lmin, hlmin, hlminlen⟩ := hminE.1
      refine ⟨visd, pd, fd, visa, pa, fa, rfl, rfl,
        ⟨lmin, hlmin, by rw [hlend, hlminlen]⟩, ?_, by rw [hlena, hlend, hmn]⟩
      intro l hl
      have hnl : n ≤ l.length := hminE.2 l.length ⟨l, hl, rfl⟩
      rw [hlend]
      omega

/-- Witness for C1 on the concrete 2×1 grid. -/
theorem claim1_witness :
    ∃ visd pd fd visa pa fa,
      runDijkstra 2 1 (some (0, 0)) (some (1, 0)) demoGrid = .success visd pd fd ∧
      runAStar 2 1 (some (0, 0)) (some (1, 0)) demoGrid = .success visa pa fa ∧
      (∃ l, WalkOk 2 1 (wallOf demoGrid) (0, 0) l (1, 0) ∧ pd.length = l.length + 1) ∧
      (∀ l, WalkOk 2 1 (wallOf demoGrid) (0, 0) l (1, 0) → pd.length ≤ l.length + 1) ∧
      pa.length = pd.length :=
  claim1_shortest_paths 2 1 (0, 0) (1, 0) demoGrid (by decide) (by decide)
    (fun p => by simp [demoGrid]) ⟨[(1, 0)], by decide⟩

/-- Claim C2: for every grid configuration with both start and end set, the
number of cells A* explores (the length of its visited-order list) is at most
the number of cells Dijkstra explores on the same grid. -/
theorem claim2_astar_le_dijkstra (cols rows : Nat) (s e : Pos) (grid : Grid)
    (hs : s.1 < cols ∧ s.2 < rows) (he : e.1 < cols ∧ e.2 < rows)
    (hend : ∀ p, (grid p).isEnd = true ↔ p = e) :
    ∃ visa visd,
      (runAStar cols rows (some s) (some e) grid).visitedList? = some visa ∧
      (runDijkstra cols rows (some s) (some e) grid).visitedList? = some visd ∧
      visa.length ≤ visd.length := by
  have hs' := mem_allPositions.mpr hs
  have he' := mem_allPositions.mpr he
  have hD := runDijkstra_spec cols rows s e grid hs' he' hend
  have hA := runAStar_spec cols rows s e grid hs' hend
  by_cases hreach : ∃ l, WalkOk cols rows (wallOf grid) s l e
  · -- the end cell is reachable: both runs succeed
    cases hDout : runDijkstra cols rows (some s) (some e) grid with
    | missingEndpoints => exact absurd hDout hD.1.1
    | fuelExceeded => exact absurd hDout hD.1.2
    | noPath rv =>
      obtain ⟨hno, _⟩ := hD.2.1 rv hDout
      obtain ⟨l, hl⟩ := hreach
      exact absurd hl (hno l)
    | success visd pd fd =>
      obtain ⟨n, hminE, _, _, _, _, _, hcov⟩ := hD.2.2 visd pd fd hDout
      cases hAout : runAStar cols rows (some s) (some e) grid with
      | missingEndpoints => exact absurd hAout hA.1.1
      | fuelExceeded => exact absurd hAout hA.1.2
      | noPath rv =>
        obtain ⟨hno, _, _⟩ := hA.2.1 rv hAout
        obtain ⟨l, hl⟩ := hreach
        exact absurd hl (hno l)
      | success visa pa fa =>
        obtain ⟨hnodupA, _, hbnd, _⟩ := hA.2.2 visa pa fa hAout
        have hsub : visa ⊆ visd := by
          intro u hu
          obtain ⟨j, hj, hjn⟩ := hbnd n hminE u hu
          exact hcov u j hj hjn
        exact ⟨visa, visd, rfl, rfl,
          (List.subperm_of_subset hnodupA hsub).length_le⟩
  · -- the end cell is unreachable: both runs report no path
    have hno' : ∀ l, ¬WalkOk cols rows (wallOf grid) s l e := fun l hl =>
      hreach ⟨l, hl⟩
    cases hDout : runDijkstra cols rows (some s) (some e) grid with
    | missingEndpoints => exact absurd hDout hD.1.1
    | fuelExceeded => exact absurd hDout hD.1.2
    | success visd pd fd =>
      obtain ⟨n, hminE, _⟩ := hD.2.2 visd pd fd hDout
      obtain ⟨l, hl, _⟩ := hminE.1
      exact absurd hl (hno' l)
    | noPath rvd =>
      obtain ⟨_, hcovD⟩ := hD.2.1 rvd hDout
      cases hAout : runAStar cols rows (some s) (some e) grid with
      | missingEndpoints => exact absurd hAout hA.1.1
      | fuelExceeded => exact absurd hAout hA.1.2
      | success visa pa fa =>
        obtain ⟨_, _, _, m, hminE', _⟩ := hA.2.2 visa pa fa hAout
        obtain ⟨l, hl, _⟩ := hminE'.1
        exact absurd hl (hno' l)
      | noPath rva =>
        obtain ⟨_, hnodupA, hfacts⟩ := hA.2.1 rva hAout
        have hsub : rva ⊆ rvd := by
          intro u hu
          obtain ⟨⟨j, hrj⟩, _⟩ := hfacts u hu
          exact hcovD u j hrj
        exact ⟨rva, rvd, rfl, rfl,
          (List.subperm_of_subset hnodupA hsub).length_le⟩

/-- Witness for C2 on the concrete 2×1 grid. -/
theorem claim2_witness :
    ∃ visa visd,
      (runAStar 2 1 (some (0, 0)) (some (1, 0)) demoGrid).visitedList? = some visa ∧
      (runDijkstra 2 1 (some (0, 0)) (some (1, 0)) demoGrid).visitedList? = some visd ∧
      visa.length ≤ visd.length :=
  claim2_astar_le_dijkstra 2 1 (0, 0) (1, 0) demoGrid (by decide) (by decide)
    (fun p => by simp [demoGrid])

/-- Claim C7: if no walk connects start to end (the frontier will be
exhausted without reaching the end), both runs fail with the no-path outcome,
emit no animation frame, and leave the live grid unmodified. -/
theorem claim7_no_path_no_animation (cols rows : Nat) (s e : Pos) (grid : Grid)
    (hs : s.1 < cols ∧ s.2 < rows) (he : e.1 < cols ∧ e.2 < rows)
    (hend : ∀ p, (grid p).isEnd = true ↔ p = e)
    (hunreach : ∀ l, ¬WalkOk cols rows (wallOf grid) s l e) :
    (∃ v, runDijkstra cols rows (some s) (some e) grid = .noPath v) ∧
    (∃ v, runAStar cols rows (some s) (some e) grid = .noPath v) ∧
    (runDijkstra cols rows (some s) (some e) grid).framesList = [] ∧
    (runAStar cols rows (some s) (some e) grid).framesList = [] ∧
    liveGridAfter (runDijkstra cols rows (some s) (some e) grid) grid = grid ∧
    liveGridAfter (runAStar cols rows (some s) (some e) grid) grid = grid := by
  have hs' := mem_allPositions.mpr hs
  have he' := mem_allPositions.mpr he
  have hD := runDijkstra_spec cols rows s e grid hs' he' hend
  have hA := runAStar_spec cols rows s e grid hs' hend
  have hDno : ∃ v, runDijkstra cols rows (some s) (some e) grid = .noPath v := by
    cases hDout : runDijkstra cols rows (some s) (some e) grid with
    | missingEndpoints => exact absurd hDout hD.1.1
    | fuelExceeded => exact absurd hDout hD.1.2
    | noPath rv => exact ⟨rv, rfl⟩
    | success visd pd fd =>
      obtain ⟨n, hminE, _⟩ := hD.2.2 visd pd fd hDout
      obtain ⟨l, hl, _⟩ := hminE.1
      exact absurd hl (hunreach l)
  have hAno : ∃ v, runAStar cols rows (some s) (some e) grid = .noPath v := by
    cases hAout : runAStar cols rows (some s) (some e) grid with
    | missingEndpoints => exact absurd hAout hA.1.1
    | fuelExceeded => exact absurd hAout hA.1.2
    | noPath rv => exact ⟨rv, rfl⟩
    | success visa pa fa =>
      obtain ⟨_, _, _, m, hminE', _⟩ := hA.2.2 visa pa fa hAout
      obtain ⟨l, hl, _⟩ := hminE'.1
      exact absurd hl (hunreach l)
  obtain ⟨vd, hvd⟩ := hDno
  obtain ⟨va, hva⟩ := hAno
  exact ⟨⟨vd, hvd⟩, ⟨va, hva⟩, by rw [hvd]; rfl, by rw [hva]; rfl,
    by rw [hvd]; rfl, by rw [hva]; rfl⟩

/-- Witness for C7 on the concrete 2×2 grid whose walls at `(1, 0)` and
`(0, 1)` fully separate the start `(0, 0)` from the end `(1, 1)`. -/
theorem claim7_witness :
    (∃ v, runDijkstra 2 2 (some (0, 0)) (some (1, 1)) demoGridBlocked = .noPath v) ∧
    (∃ v, runAStar 2 2 (some (0, 0)) (some (1, 1)) demoGridBlocked = .noPath v) ∧
    (runDijkstra 2 2 (some (0, 0)) (some (1, 1)) demoGridBlocked).framesList = [] ∧
    (runAStar 2 2 (some (0, 0)) (some (1, 1)) demoGridBlocked).framesList = [] ∧
    liveGridAfter (runDijkstra 2 2 (some (0, 0)) (some (1, 1)) demoGridBlocked)
      demoGridBlocked = demoGridBlocked ∧
    liveGridAfter (runAStar 2 2 (some (0, 0)) (some (1, 1)) demoGridBlocked)
      demoGridBlocked = demoGridBlocked := by
  refine claim7_no_path_no_animation 2 2 (0, 0) (1, 1) demoGridBlocked (by decide)
    (by decide) (fun p => by simp [demoGridBlocked]) ?_
  intro l hw
  cases l with
  | nil => exact absurd hw (by decide)
  | cons q l' =>
    rcases hw with ⟨hadj, h1, h2, hwq, _⟩
    have hq : q = (1, 0) ∨ q = (0, 1) := by
      obtain ⟨qx, qy⟩ := q
      simp only [adjacent, Prod.mk.injEq] at hadj ⊢
      omega
    rcases hq with rfl | rfl <;> exact absurd hwq (by decide)

/-- Claim C8: in every grid state emitted by the animation sequencer, cells
flagged start or end keep `isVisited = false` and `isPath = false` (provided
they start out clean, as every freshly reset working grid does); the sequencer
emits exactly one state per input cell, the states of the visited phase never
touch any `isPath` flag (no cell becomes path before every visited update has
been emitted), and each emitted state differs from its predecessor at most at
the single cell being processed, in list order. -/
theorem claim8_animation (g0 : Grid) (visited path : List Pos)
    (hclean : ∀ p, (g0 p).isStart = true ∨ (g0 p).isEnd = true →
      (g0 p).isVisited = false ∧ (g0 p).isPath = false) :
    (animateAlgorithm g0 visited path).length = visited.length + path.length ∧
    (∀ fr ∈ animateAlgorithm g0 visited path, ∀ p,
      (g0 p).isStart = true ∨ (g0 p).isEnd = true →
      (fr p).isVisited = false ∧ (fr p).isPath = false) ∧
    (∀ fr ∈ (animateAlgorithm g0 visited path).take visited.length, ∀ p,
      (fr p).isPath = (g0 p).isPath) ∧
    (∀ i, i < visited.length + path.length → ∀ q,
      q ≠ (visited ++ path).getD i (0, 0) →
      ((animateAlgorithm g0 visited path).getD i g0) q =
        ((g0 :: animateAlgorithm g0 visited path).getD i g0) q) := by
  have hlenA := animFrames_length markVisited visited g0
  have hlenB := animFrames_length markPath path (visited.foldl markVisited g0)
  refine ⟨?_, animate_clean g0 hclean visited path, ?_, ?_⟩
  · rw [animateAlgorithm, List.length_append, hlenA, hlenB]
  · have htake : (animateAlgorithm g0 visited path).take visited.length =
        animFrames markVisited g0 visited := by
      rw [animateAlgorithm, ← hlenA]
      exact List.take_left _ _
    rw [htake]
    intro fr hfr p
    exact animFrames_pres markVisited (fun g => ∀ r, (g r).isPath = (g0 r).isPath)
      (fun g x hg r => ((markVisited_flags g x r).2.2).trans (hg r))
      visited g0 (fun _ => rfl) fr hfr p
  · intro i hi q hq
    by_cases hiA : i < visited.length
    · have h1 : (animateAlgorithm g0 visited path).getD i g0 =
          (animFrames markVisited g0 visited).getD i g0 :=
        List.getD_append _ _ _ _ (by rw [hlenA]; exact hiA)
      have h2 : (g0 :: animateAlgorithm g0 visited path).getD i g0 =
          (g0 :: animFrames markVisited g0 visited).getD i g0 := by
        rw [animateAlgorithm, ← List.cons_append]
        exact List.getD_append _ _ _ _ (by simp only [List.length_cons, hlenA]; omega)
      have h3 : (visited ++ path).getD i (0, 0) = visited.getD i (0, 0) :=
        List.getD_append _ _ _ _ hiA
      rw [h1, h2]
      exact animFrames_locality markVisited (fun g x r h => markVisited_other g x h)
        (0, 0) g0 visited g0 i hiA q (by rw [← h3]; exact hq)
    · have hj : i - visited.length < path.length := by omega
      have h1 : (animateAlgorithm g0 visited path).getD i g0 =
          (animFrames markPath (visited.foldl markVisited g0) path).getD
            (i - visited.length) g0 := by
        rw [animateAlgorithm]
        rw [List.getD_append_right _ _ _ _ (by rw [hlenA]; omega), hlenA]
      have h2 : (g0 :: animateAlgorithm g0 visited path).getD i g0 =
          ((visited.foldl markVisited g0) ::
            animFrames markPath (visited.foldl markVisited g0) path).getD
            (i - visited.length) g0 := by
        rw [animateAlgorithm, ← List.cons_append]
        by_cases hieq : i = visited.length
        · rw [hieq, Nat.sub_self, List.getD_cons_zero]
          rw [List.getD_append _ _ _ _ (by simp only [List.length_cons, hlenA]; omega)]
          exact animFrames_last markVisited g0 visited g0
        · have hgt : visited.length + 1 ≤ i := by omega
          rw [List.getD_append_right _ _ _ _
            (by simp only [List.length_cons, hlenA]; omega)]
          have hidx : i - (g0 :: animFrames markVisited g0 visited).length =
              i - visited.length - 1 := by
            simp only [List.length_cons, hlenA]
            omega
          rw [hidx]
          have hsucc : i - visited.length = (i - visited.length - 1) + 1 := by omega
          rw [hsucc, List.getD_cons_succ]
          congr 1
      have h3 : (visited ++ path).getD i (0, 0) =
          path.getD (i - visited.length) (0, 0) :=
        List.getD_append_right _ _ _ _ (by omega)
      rw [h1, h2]
      exact animFrames_locality markPath (fun g x r h => markPath_other g x h)
        (0, 0) g0 path (visited.foldl markVisited g0) (i - visited.length) hj q
        (by rw [← h3]; exact hq)

/-- Witness for C8 on the concrete 2×1 grid with a one-cell visited phase and
a one-cell path phase. -/
theorem claim8_witness :
    (animateAlgorithm demoGrid [(0, 0)] [(1, 0)]).length =
      [(0, 0)].length + [(1, 0)].length ∧
    (∀ fr ∈ animateAlgorithm demoGrid [(0, 0)] [(1, 0)], ∀ p : Pos,
      (demoGrid p).isStart = true ∨ (demoGrid p).isEnd = true →
      (fr p).isVisited = false ∧ (fr p).isPath = false) ∧
    (∀ fr ∈ (animateAlgorithm demoGrid [(0, 0)] [(1, 0)]).take [(0, 0)].length,
      ∀ p : Pos, (fr p).isPath = (demoGrid p).isPath) ∧
    (∀ i, i < [(0, 0)].length + [(1, 0)].length → ∀ q : Pos,
      q ≠ ([(0, 0)] ++ [(1, 0)]).getD i (0, 0) →
      ((animateAlgorithm demoGrid [(0, 0)] [(1, 0)]).getD i demoGrid) q =
        ((demoGrid :: animateAlgorithm demoGrid [(0, 0)] [(1, 0)]).getD i demoGrid) q) :=
  claim8_animation demoGrid [(0, 0)] [(1, 0)]
    (fun p _ => by simp [demoGrid])

/-- Claim C9: every canvas edit preserves the invariant that no cell is both
a wall and a start/end cell; toggling a wall on the current start or end cell
is a no-op (grid and references unchanged), and placing start or end on an
in-bounds cell clears that cell's wall flag while setting its flag. -/
theorem claim9_edit_invariant (cols rows : Nat) (tool : Tool) (p : Pos)
    (grid : Grid) (startNode endNode : Option Pos)
    (hinv : ∀ q, (grid q).isStart = true ∨ (grid q).isEnd = true →
      (grid q).isWall = false) :
    (∀ q, (((handleCanvasClick cols rows tool p grid startNode endNode).1 q).isStart = true ∨
        ((handleCanvasClick cols rows tool p grid startNode endNode).1 q).isEnd = true) →
      ((handleCanvasClick cols rows tool p grid startNode endNode).1 q).isWall = false) ∧
    (tool = .wall → ((grid p).isStart = true ∨ (grid p).isEnd = true) →
      handleCanvasClick cols rows tool p grid startNode endNode =
        (grid, startNode, endNode)) ∧
    (tool = .placeStart → p.1 < cols → p.2 < rows →
      ((handleCanvasClick cols rows tool p grid startNode endNode).1 p).isWall = false ∧
      ((handleCanvasClick cols rows tool p grid startNode endNode).1 p).isStart = true) ∧
    (tool = .placeEnd → p.1 < cols → p.2 < rows →
      ((handleCanvasClick cols rows tool p grid startNode endNode).1 p).isWall = false ∧
      ((handleCanvasClick cols rows tool p grid startNode endNode).1 p).isEnd = true) := by
  by_cases hb : p.1 < cols ∧ p.2 < rows
  · cases tool with
    | placeStart =>
      cases startNode with
      | none =>
        have hred1 : (handleCanvasClick cols rows .placeStart p grid none endNode).1 =
            updateCell grid p { grid p with isStart := true, isWall := false } := by
          simp [handleCanvasClick, hb]
        rw [hred1]
        refine ⟨?_, by intro h; simp at h, fun _ _ _ => ?_, by intro h; simp at h⟩
        · intro q hq
          by_cases hqp : q = p
          · rw [hqp, updateCell_same]
          · rw [updateCell_ne _ _ _ hqp] at hq ⊢
            exact hinv q hq
        · rw [updateCell_same]
          exact ⟨rfl, rfl⟩
      | some s0 =>
        have hred1 : (handleCanvasClick cols rows .placeStart p grid (some s0) endNode).1 =
            updateCell (updateCell grid s0 { grid s0 with isStart := false }) p
              { (updateCell grid s0 { grid s0 with isStart := false }) p with
                  isStart := true, isWall := false } := by
          simp [handleCanvasClick, hb]
        rw [hred1]
        refine ⟨?_, by intro h; simp at h, fun _ _ _ => ?_, by intro h; simp at h⟩
        · intro q hq
          by_cases hqp : q = p
          · rw [hqp, updateCell_same]
          · rw [updateCell_ne _ _ _ hqp] at hq ⊢
            by_cases hqs : q = s0
            · rw [hqs, updateCell_same] at hq ⊢
              rcases hq with hq | hq
              · exact absurd hq (by simp)
              · exact hinv s0 (Or.inr hq)
            · rw [updateCell_ne _ _ _ hqs] at hq ⊢
              exact hinv q hq
        · rw [updateCell_same]
          exact ⟨rfl, rfl⟩
    | placeEnd =>
      cases endNode with
      | none =>
        have hred1 : (handleCanvasClick cols rows .placeEnd p grid startNode none).1 =
            updateCell grid p { grid p with isEnd := true, isWall := false } := by
          simp [handleCanvasClick, hb]
        rw [hred1]
        refine ⟨?_, by intro h; simp at h, by intro h; simp at h, fun _ _ _ => ?_⟩
        · intro q hq
          by_cases hqp : q = p
          · rw [hqp, updateCell_same]
          · rw [updateCell_ne _ _ _ hqp] at hq ⊢
            exact hinv q hq
        · rw [updateCell_same]
          exact ⟨rfl, rfl⟩
      | some t0 =>
        have hred1 : (handleCanvasClick cols rows .placeEnd p grid startNode (some t0)).1 =
            updateCell (updateCell grid t0 { grid t0 with isEnd := false }) p
              { (updateCell grid t0 { grid t0 with isEnd := false }) p with
                  isEnd := true, isWall := false } := by
          simp [handleCanvasClick, hb]
        rw [hred1]
        refine ⟨?_, by intro h; simp at h, by intro h; simp at h, fun _ _ _ => ?_⟩
        · intro q hq
          by_cases hqp : q = p
          · rw [hqp, updateCell_same]
          · rw [updateCell_ne _ _ _ hqp] at hq ⊢
            by_cases hqt : q = t0
            · rw [hqt, updateCell_same] at hq ⊢
              rcases hq with hq | hq
              · exact hinv t0 (Or.inl hq)
              · exact absurd hq (by simp)
            · rw [updateCell_ne _ _ _ hqt] at hq ⊢
              exact hinv q hq
        · rw [updateCell_same]
          exact ⟨rfl, rfl⟩
    | wall =>
      by_cases hflag : (grid p).isStart = false ∧ (grid p).isEnd = false
      · have hred1 : (handleCanvasClick cols rows .wall p grid startNode endNode).1 =
            updateCell grid p { grid p with isWall := !(grid p).isWall } := by
          simp [handleCanvasClick, hb, hflag]
        rw [hred1]
        refine ⟨?_, ?_, by intro h; simp at h, by intro h; simp at h⟩
        · intro q hq
          by_cases hqp : q = p
          · rw [hqp, updateCell_same] at hq ⊢
            rcases hq with hq | hq
            · exact absurd (hflag.1.symm.trans hq) (by simp)
            · exact absurd (hflag.2.symm.trans hq) (by simp)
          · rw [updateCell_ne _ _ _ hqp] at hq ⊢
            exact hinv q hq
        · intro _ hpflag
          rcases hpflag with h | h
          · exact absurd hflag.1 (by rw [h]; simp)
          · exact absurd hflag.2 (by rw [h]; simp)
      · have hred : handleCanvasClick cols rows .wall p grid startNode endNode =
            (grid, startNode, endNode) := by
          simp [handleCanvasClick, hb, hflag]
        have hred1 : (handleCanvasClick cols rows .wall p grid startNode endNode).1 =
            grid := by rw [hred]
        refine ⟨?_, fun _ _ => hred, by intro h; simp at h, by intro h; simp at h⟩
        rw [hred1]
        exact fun q hq => hinv q hq
  · have hred : handleCanvasClick cols rows tool p grid startNode endNode =
        (grid, startNode, endNode) := by
      simp [handleCanvasClick, hb]
    have hred1 : (handleCanvasClick cols rows tool p grid startNode endNode).1 =
        grid := by rw [hred]
    refine ⟨?_, fun _ _ => hred, fun _ h1 h2 => absurd ⟨h1, h2⟩ hb,
      fun _ h1 h2 => absurd ⟨h1, h2⟩ hb⟩
    rw [hred1]
    exact fun q hq => hinv q hq

/-- Witness for C9: the wall tool on the start cell of a concrete grid. -/
theorem claim9_witness :
    (∀ q, (((handleCanvasClick 2 1 .wall (0, 0) demoGrid (some (0, 0))
        (some (1, 0))).1 q).isStart = true ∨
        ((handleCanvasClick 2 1 .wall (0, 0) demoGrid (some (0, 0))
          (some (1, 0))).1 q).isEnd = true) →
      ((handleCanvasClick 2 1 .wall (0, 0) demoGrid (some (0, 0))
        (some (1, 0))).1 q).isWall = false) ∧
    (Tool.wall = Tool.wall →
      ((demoGrid (0, 0)).isStart = true ∨ (demoGrid (0, 0)).isEnd = true) →
      handleCanvasClick 2 1 .wall (0, 0) demoGrid (some (0, 0)) (some (1, 0)) =
        (demoGrid, some (0, 0), some (1, 0))) ∧
    (Tool.wall = Tool.placeStart → (0 : Nat) < 2 → (0 : Nat) < 1 →
      ((handleCanvasClick 2 1 .wall (0, 0) demoGrid (some (0, 0))
        (some (1, 0))).1 (0, 0)).isWall = false ∧
      ((handleCanvasClick 2 1 .wall (0, 0) demoGrid (some (0, 0))
        (some (1, 0))).1 (0, 0)).isStart = true) ∧
    (Tool.wall = Tool.placeEnd → (0 : Nat) < 2 → (0 : Nat) < 1 →
      ((handleCanvasClick 2 1 .wall (0, 0) demoGrid (some (0, 0))
        (some (1, 0))).1 (0, 0)).isWall = false ∧
      ((handleCanvasClick 2 1 .wall (0, 0) demoGrid (some (0, 0))
        (some (1, 0))).1 (0, 0)).isEnd = true) :=
  claim9_edit_invariant 2 1 .wall (0, 0) demoGrid (some (0, 0)) (some (1, 0))
    (fun _ _ => rfl)

/-- Claim C10: if the single cell referenced by both the start and the end
reference has its `isEnd` flag set (start and end are the same cell), both
algorithms succeed immediately with an empty visited-order list
(`nodesExplored = 0`) and a path consisting of exactly that cell
(`pathLength = 1`). -/
theorem claim10_start_eq_end (cols rows : Nat) (p : Pos) (grid : Grid)
    (hp : p.1 < cols ∧ p.2 < rows) (hpe : (grid p).isEnd = true) :
    (∃ frames, runDijkstra cols rows (some p) (some p) grid =
      .success [] [p] frames) ∧
    (∃ frames, runAStar cols rows (some p) (some p) grid =
      .success [] [p] frames) := by
  have hmem : p ∈ allPositions cols rows := mem_allPositions.mpr hp
  constructor
  · -- Dijkstra
    have hg0 : (dijkstraInit grid p p).gScore = 0 := by rw [dijkstraInit_same]
    have hendp : (dijkstraInit grid p p).isEnd = true := by
      rw [dijkstraInit_same]
      exact hpe
    have hgtop : ∀ q, q ≠ p → (dijkstraInit grid p q).gScore = ⊤ := fun q hq => by
      rw [dijkstraInit_other grid hq]
      rfl
    cases hsort : sortByGScore (dijkstraInit grid p) (allPositions cols rows) with
    | nil =>
      rw [sortByGScore_nil hsort] at hmem
      exact absurd hmem (List.not_mem_nil p)
    | cons c rest =>
      obtain ⟨hperm, hcmem, hmin⟩ := sortByGScore_cons hsort
      have hcp : c = p := by
        by_contra hne
        have hle := hmin p hmem
        rw [hgtop c hne, hg0] at hle
        exact absurd (top_le_iff.mp hle) (by simp)
      rw [hcp] at hsort
      obtain ⟨f, hf⟩ : ∃ f, (allPositions cols rows).length = f + 1 := by
        have hpos : 0 < (allPositions cols rows).length :=
          List.length_pos.mpr (List.ne_nil_of_mem hmem)
        exact ⟨(allPositions cols rows).length - 1, by omega⟩
      refine ⟨animateAlgorithm (dijkstraInit grid p) [] [p], ?_⟩
      show dijkstraLoop cols rows (allPositions cols rows).length (dijkstraInit grid p)
        (allPositions cols rows) [] = _
      rw [hf]
      have hgne : ¬(dijkstraInit grid p p).gScore = ⊤ := by
        rw [hg0]
        simp
      simp [dijkstraLoop, hsort, hgne, hendp, hg0, reconstructPath]
  · -- A*
    have hg0 : (aStarInit grid p p p).gScore = 0 := by rw [aStarInit_same]
    have hendp : (aStarInit grid p p p).isEnd = true := by
      rw [aStarInit_same]
      exact hpe
    have hsorta : sortByFScore (aStarInit grid p p) [p] = [p] := rfl
    refine ⟨animateAlgorithm (aStarInit grid p p) [] [p], ?_⟩
    show aStarLoop cols rows p ((allPositions cols rows).length + 1)
      (aStarInit grid p p) [p] [] [] = _
    simp [aStarLoop, hsorta, hendp, hg0, reconstructPath]

/-- Witness for C10 on a concrete 2×1 grid whose cell `(0, 0)` is both start
and end. -/
theorem claim10_witness :
    (∃ frames, runDijkstra 2 1 (some (0, 0)) (some (0, 0)) demoGridSE =
      .success [] [(0, 0)] frames) ∧
    (∃ frames, runAStar 2 1 (some (0, 0)) (some (0, 0)) demoGridSE =
      .success [] [(0, 0)] frames) :=
  claim10_start_eq_end 2 1 (0, 0) demoGridSE (by decide) (by decide)

end ShortestPath
